import Mathlib

/-!
Verification of the package bundling orchestrator (`scripts/src/pkg/bundle.ts`-style
module of this repository).  JavaScript objects are modelled as insertion-ordered
association lists over `String` keys (prototype-chain properties are out of the
model); dynamic imports, the filesystem glob and the rollup engine are modelled
as explicit environment parameters.  All machine-facing behaviour (wildcard
expansion, path joining/normalisation, extension rewriting, plugin resolution)
is translated function-by-function from the TypeScript source.
-/

namespace BuildPkg

/-! ## JavaScript object model: insertion-ordered association lists -/

/-- Property read `m[k]` on a plain JS object (own properties only). -/
def jsLookup {α : Type} : List (String × α) → String → Option α
  | [], _ => none
  | (k, v) :: rest, j => if k = j then some v else jsLookup rest j

/-- Property write `m[k] = v`: overwrite in place keeps the key position,
a fresh key is appended (JS object insertion order). -/
def jsInsert {α : Type} : List (String × α) → String → α → List (String × α)
  | [], k, v => [(k, v)]
  | (k', v') :: rest, k, v =>
    if k' = k then (k, v) :: rest else (k', v') :: jsInsert rest k v

/-- `Object.keys`. -/
def jsKeys {α : Type} (m : List (String × α)) : List String :=
  m.map Prod.fst

/-- `Object.assign(dst, src)`: write every property of `src` into `dst` in order. -/
def jsAssign {α : Type} (dst src : List (String × α)) : List (String × α) :=
  src.foldl (fun m kv => jsInsert m kv.1 kv.2) dst

/-- Writing a whole pair list into an initial object, in order (the shape of the
`for .. in` copy loops of the source). -/
def foldInsert {α : Type} (init : List (String × α)) (pairs : List (String × α)) :
    List (String × α) :=
  pairs.foldl (fun m kv => jsInsert m kv.1 kv.2) init

/-! ## Character-level string utilities -/

/-- Split a character list on `/` (the separator handling of node `path`). -/
def chSplit : List Char → List (List Char)
  | [] => [[]]
  | c :: rest =>
    match chSplit rest with
    | [] => [[c]]
    | seg :: segs => if c = '/' then [] :: seg :: segs else (c :: seg) :: segs

/-- Normalisation step of node `path.join`: drop empty and `.` segments,
resolve `..` against the accumulated stack (a leading `..` of an absolute
path is discarded, of a relative path kept).  `acc` is the reversed stack. -/
def chCollapse (isAbs : Bool) : List (List Char) → List (List Char) → List (List Char)
  | acc, [] => acc.reverse
  | acc, s :: rest =>
    if s = [] ∨ s = ['.'] then chCollapse isAbs acc rest
    else if s = ['.', '.'] then
      match acc with
      | [] => if isAbs then chCollapse isAbs [] rest else chCollapse isAbs [['.', '.']] rest
      | t :: acc' =>
        if t = ['.', '.'] then chCollapse isAbs (s :: t :: acc') rest
        else chCollapse isAbs acc' rest
    else chCollapse isAbs (s :: acc) rest

/-- Interleave `/` between segments. -/
def chJoinSegs : List (List Char) → List Char
  | [] => []
  | [s] => s
  | s :: rest => s ++ '/' :: chJoinSegs rest

/-- node `path.join(...parts)` (posix), as used by the source: non-empty parts are
joined with `/` and the result is normalised.  Trailing-slash preservation is
irrelevant to this code base and omitted. -/
def joinPaths (parts : List String) : String :=
  match parts.filter (fun p => p ≠ "") with
  | [] => "."
  | ps =>
    let cs := chJoinSegs (ps.map String.data)
    let isAbs : Bool := decide (cs.head? = some '/')
    let segs := chCollapse isAbs [] (chSplit cs)
    let r := (if isAbs then ['/'] else []) ++ chJoinSegs segs
    if r = [] then "." else ⟨r⟩

/-- node `path.dirname` (posix): skip trailing slashes, drop the last segment
and the slashes before it. -/
def dirname (p : String) : String :=
  let r1 := p.data.reverse.dropWhile (fun c => c = '/')
  let r2 := r1.dropWhile (fun c => c ≠ '/')
  let r3 := r2.dropWhile (fun c => c = '/')
  if r3 = [] then (if p.data.head? = some '/' then "/" else ".") else ⟨r3.reverse⟩

/-! ## App-specific path utilities (translated from the source) -/

/-- Strip of the regex `/^\.\//` (at most one leading `./`). -/
def chStripDotSlash : List Char → List Char
  | '.' :: '/' :: rest => rest
  | cs => cs

/-- Strip of the regex `/\.[jt]sx?$/` (one trailing `.js`/`.jsx`/`.ts`/`.tsx`). -/
def chStripJtsx (cs : List Char) : List Char :=
  match cs.reverse with
  | 'x' :: 's' :: 'j' :: '.' :: rest => rest.reverse
  | 'x' :: 's' :: 't' :: '.' :: rest => rest.reverse
  | 's' :: 'j' :: '.' :: rest => rest.reverse
  | 's' :: 't' :: '.' :: rest => rest.reverse
  | _ => cs

/-- `buildOutputId(relSrcPath)`:
`relSrcPath.replace(/^\.\//, '').replace(/\.[jt]sx?$/, '')`. -/
def buildOutputId (relSrcPath : String) : String :=
  ⟨chStripJtsx (chStripDotSlash relSrcPath.data)⟩

/-- Strip of the regex `/\.tsx?$/` (one trailing `.ts` or `.tsx`). -/
def chStripTsx (cs : List Char) : List Char :=
  match cs.reverse with
  | 'x' :: 's' :: 't' :: '.' :: rest => rest.reverse
  | 's' :: 't' :: '.' :: rest => rest.reverse
  | _ => cs

/-- `buildTscPath(pkgDir, relSrcPath, ext)`:
`joinPaths(pkgDir, 'dist', '.tsc', relSrcPath).replace(/\.tsx?$/, '') + ext`. -/
def buildTscPath (pkgDir relSrcPath ext : String) : String :=
  ⟨chStripTsx (joinPaths [pkgDir, "dist", ".tsc", relSrcPath]).data⟩ ++ ext

/-- Remove the first match of the unanchored regex `/\.tsx?/`
(`relSrcPath.replace(/\.tsx?/, '')` in `analyzePkg`). -/
def chRemoveFirstTsx : List Char → List Char
  | [] => []
  | '.' :: 't' :: 's' :: 'x' :: rest => rest
  | '.' :: 't' :: 's' :: rest => rest
  | c :: rest => c :: chRemoveFirstTsx rest

/-- String wrapper for `chRemoveFirstTsx`. -/
def removeFirstTsx (s : String) : String :=
  ⟨chRemoveFirstTsx s.data⟩

/-- `isPathRelative(path)`: the regex `/^\.\.?\/?/` accepts exactly the strings
whose first character is `.` (both of its other atoms are optional). -/
def isPathRelative (path : String) : Bool :=
  path.data.head? = some '.'

/-- `extractPkgName(importId)`: the first match of `/^(@[a-z-.]+\/)?[a-z-.]+/`. -/
def isPkgNameChar (c : Char) : Bool :=
  ('a' ≤ c && c ≤ 'z') || c = '-' || c = '.'

/-- Leading package-name segment of an import specifier (none when the regex
does not match at the start). -/
def extractPkgName (importId : String) : Option String :=
  match importId.data with
  | '@' :: rest =>
    match rest.takeWhile isPkgNameChar, rest.dropWhile isPkgNameChar with
    | [], _ => none
    | seg1, '/' :: rest2 =>
      match rest2.takeWhile isPkgNameChar with
      | [] => none
      | seg2 => some ⟨'@' :: (seg1 ++ '/' :: seg2)⟩
    | _, _ => none
  | cs =>
    match cs.takeWhile isPkgNameChar with
    | [] => none
    | seg => some ⟨seg⟩

/-- `id.replace(/\.js$/, '.mjs')` (used by the externalize-exports plugin). -/
def jsToMjs (id : String) : String :=
  match id.data.reverse with
  | 's' :: 'j' :: '.' :: rest => ⟨rest.reverse ++ ('.' :: 'm' :: 'j' :: 's' :: [])⟩
  | _ => id

/-- Wildcard test `entryId.indexOf('*') !== -1`. -/
def hasWildcard (entryId : String) : Bool :=
  entryId.data.contains '*'

/-- `entryId.replace('*', key)`: replace the first `*`.  (The `$`-substitution
quirks of JS replacement strings are outside the model.) -/
def chReplaceFirstStar : List Char → List Char → List Char
  | [], _ => []
  | c :: rest, k => if c = '*' then k ++ rest else c :: chReplaceFirstStar rest k

/-- String wrapper for `chReplaceFirstStar`. -/
def replaceFirstStar (entryId key : String) : String :=
  ⟨chReplaceFirstStar entryId.data key.data⟩

/-- Does the path end with `.ts` or `.tsx` (shape of every path produced by the
`globby` query `<entry>.{ts,tsx}` and of every generated `<id>.ts` path)? -/
def tsLikePath (p : String) : Bool :=
  match p.data.reverse with
  | 'x' :: 's' :: 't' :: '.' :: _ => true
  | 's' :: 't' :: '.' :: _ => true
  | _ => false

/-! ## Data model (from `meta.ts` / the manifest fields the source consumes) -/

/-- `iife` sub-configuration of an entry (`name`, `globals`, optional `generator`). -/
structure IifeConfig where
  name : Option String := none
  globals : Option (List (String × String)) := none
  generator : Option String := none
deriving DecidableEq, Repr

/-- One export-map entry configuration. -/
structure EntryConfig where
  generator : Option String := none
  iife : Option IifeConfig := none
deriving DecidableEq, Repr

/-- `buildConfig` of the source package manifest. -/
structure BuildConfig where
  esm : Option Bool := none
  cjs : Option Bool := none
  types : Option Bool := none
  exports : Option (List (String × EntryConfig)) := none
deriving DecidableEq, Repr

/-- The manifest fields consumed by the bundler (`SrcPkgMeta`). -/
structure SrcPkgMeta where
  dependencies : Option (List (String × String)) := none
  peerDependencies : Option (List (String × String)) := none
  devDependencies : Option (List (String × String)) := none
  buildConfig : Option BuildConfig := none
deriving DecidableEq, Repr

/-- Resolved, ready-to-bundle view of a package (`PkgAnalysis`). -/
structure PkgAnalysis where
  pkgDir : String
  pkgMeta : SrcPkgMeta
  entryConfigMap : List (String × EntryConfig)
  relSrcPathMap : List (String × List String)
  entryContentMap : List (String × String)
  iifeEntryContentMap : List (String × String)
deriving DecidableEq, Repr

/-! ## Generated content (`generateEntryContent`) -/

/-- The `typeof` classes a generator invocation can produce: a string, an object
(whose own enumerable string-valued properties are listed in insertion order;
`typeof null` is also `'object'`, i.e. an empty list), or anything else. -/
inductive GenResult : Type
  | str (s : String)
  | obj (kvs : List (String × String))
  | other
deriving DecidableEq, Repr

/-- The `default` export of a dynamically imported generator module: either a
callable function of the entry id, or not a function. -/
inductive GenModuleDefault : Type
  | func (f : String → GenResult)
  | notFunc

/-- External collaborators of `analyzePkg`: dynamic import of a generator module
(by absolute path) and the `globby` source query (by package dir and entry id). -/
structure PkgEnv where
  genModules : String → GenModuleDefault
  srcQuery : String → String → List String

/-- `generateEntryContent(entryId, generatorPath)` with the dynamic import already
resolved to the module default export.  Configuration errors are `Except.error`;
the error of a throwing import or generator call is a separate class propagated
unmodified and lies outside this function in the source too. -/
def generateEntryContent (entryId : String) (gen : GenModuleDefault) :
    Except String (List (String × String)) :=
  match gen with
  | .notFunc => .error "Generator must have a default function export"
  | .func f =>
    match f entryId with
    | .str s =>
      if hasWildcard entryId then
        .error "Generator string output cannot have blob entrypoint name"
      else
        .ok (jsInsert [] entryId s)
    | .obj kvs =>
      if !hasWildcard entryId then
        .error "Generator object output must have blob entrypoint name"
      else
        .ok (kvs.foldl (fun m kv => jsInsert m (replaceFirstStar entryId kv.1) kv.2) [])
    | .other => .error "Invalid type of generator output"

/-! ## Package analysis (`analyzePkg`)

The source resolves all declared entries concurrently and each task writes into
the shared maps when it completes; `analyzePkgOrdered` takes the completion
order of those tasks as an explicit parameter (any permutation of the declared
entry ids). -/

/-- Mutable state shared by the per-entry tasks of `analyzePkg`. -/
structure AnalysisAcc where
  relSrcPathMap : List (String × List String)
  entryContentMap : List (String × String)
  iifeEntryContentMap : List (String × String)
deriving DecidableEq, Repr

/-- The `if (iifeGenerator)` loop of one entry task: for every resolved source
path, run the iife generator on the wildcard-stripped path and write the result
into the shared iife content map. -/
def processEntryIife (pkgDir : String) (env : PkgEnv) (iifeGen : String)
    (relSrcPaths : List String) (acc : AnalysisAcc) : Except String AnalysisAcc :=
  relSrcPaths.foldlM
    (fun a p =>
      (generateEntryContent (removeFirstTsx p)
          (env.genModules (joinPaths [pkgDir, iifeGen]))).map
        (fun cm => { a with iifeEntryContentMap := jsAssign a.iifeEntryContentMap cm }))
    acc

/-- One entry task of `analyzePkg`. -/
def processEntry (pkgDir : String) (env : PkgEnv) (entryId : String)
    (cfg : EntryConfig) (acc : AnalysisAcc) : Except String AnalysisAcc := do
  let (relSrcPaths, acc) ←
    match cfg.generator with
    | some gen => do
      let contentMap ← generateEntryContent entryId (env.genModules (joinPaths [pkgDir, gen]))
      pure (contentMap.map (fun kv => kv.1 ++ ".ts"),
            { acc with entryContentMap := jsAssign acc.entryContentMap contentMap })
    | none =>
      pure (env.srcQuery pkgDir entryId, acc)
  let acc := { acc with relSrcPathMap := jsInsert acc.relSrcPathMap entryId relSrcPaths }
  match cfg.iife.bind (fun i => i.generator) with
  | some iifeGen => processEntryIife pkgDir env iifeGen relSrcPaths acc
  | none => pure acc

/-- Entry-configuration map of a manifest: `(pkgMeta.buildConfig || {}).exports || {}`. -/
def entryConfigMapOf (pkgMeta : SrcPkgMeta) : List (String × EntryConfig) :=
  ((pkgMeta.buildConfig.getD {}).exports).getD []

/-- One completion step of the concurrent entry resolution (ids missing from the
configuration map do not occur in practice and contribute nothing). -/
def analyzeEntryStep (pkgDir : String) (env : PkgEnv)
    (entryConfigMap : List (String × EntryConfig)) (acc : AnalysisAcc)
    (entryId : String) : Except String AnalysisAcc :=
  match jsLookup entryConfigMap entryId with
  | some cfg => processEntry pkgDir env entryId cfg acc
  | none => pure acc

/-- `analyzePkg(pkgDir)` with the manifest read and the task completion order
made explicit.  `Promise.all` semantics: the first failing task rejects the
whole analysis. -/
def analyzePkgOrdered (pkgDir : String) (pkgMeta : SrcPkgMeta) (env : PkgEnv)
    (order : List String) : Except String PkgAnalysis :=
  let entryConfigMap := entryConfigMapOf pkgMeta
  (order.foldlM (analyzeEntryStep pkgDir env entryConfigMap)
      (⟨[], [], []⟩ : AnalysisAcc)).map
    (fun acc : AnalysisAcc =>
      { pkgDir := pkgDir, pkgMeta := pkgMeta, entryConfigMap := entryConfigMap
        relSrcPathMap := acc.relSrcPathMap
        entryContentMap := acc.entryContentMap
        iifeEntryContentMap := acc.iifeEntryContentMap })

/-- Library content contributed by one entry task (empty without a generator);
specification companion of `processEntry`. -/
def entryContentE (pkgDir : String) (env : PkgEnv) (entryId : String)
    (cfg : EntryConfig) : Except String (List (String × String)) :=
  match cfg.generator with
  | some gen => generateEntryContent entryId (env.genModules (joinPaths [pkgDir, gen]))
  | none => .ok []

/-- Resolved source paths of one entry, given its library content. -/
def entryPathsOf (pkgDir : String) (env : PkgEnv) (entryId : String)
    (cfg : EntryConfig) (cm : List (String × String)) : List String :=
  match cfg.generator with
  | some _ => cm.map (fun kv => kv.1 ++ ".ts")
  | none => env.srcQuery pkgDir entryId

/-- Concatenated iife content contributed by one entry across its source paths. -/
def entryIifeContentE (pkgDir : String) (env : PkgEnv) (cfg : EntryConfig)
    (relSrcPaths : List String) : Except String (List (String × String)) :=
  match cfg.iife.bind (fun i => i.generator) with
  | some iifeGen =>
    relSrcPaths.foldlM
      (fun m p =>
        (generateEntryContent (removeFirstTsx p)
            (env.genModules (joinPaths [pkgDir, iifeGen]))).map (fun cm => m ++ cm))
      []
  | none => .ok []

/-- The complete contribution of one entry task: content map, resolved source
paths and iife content. -/
def entryData (pkgDir : String) (env : PkgEnv) (entryId : String)
    (cfg : EntryConfig) :
    Except String (List (String × String) × List String × List (String × String)) := do
  let cm ← entryContentE pkgDir env entryId cfg
  let ps := entryPathsOf pkgDir env entryId cfg cm
  let icm ← entryIifeContentE pkgDir env cfg ps
  pure (cm, ps, icm)

/-- Entry contribution looked up through the configuration map. -/
def entryDataOf (pkgDir : String) (env : PkgEnv)
    (cfgMap : List (String × EntryConfig)) (entryId : String) :
    Option (List (String × String) × List String × List (String × String)) :=
  (jsLookup cfgMap entryId).bind
    (fun cfg => (entryData pkgDir env entryId cfg).toOption)

/-! ## Rollup input (`buildInputMap`) -/

/-- `buildInputMap(pkgAnalysis, ext)`: the nested `for .. in` / `for .. of`
loops write the pair `(buildOutputId(p), buildTscPath(pkgDir, p, ext))` for
every resolved source path `p`, in map order. -/
def buildInputMap (a : PkgAnalysis) (ext : String) : List (String × String) :=
  foldInsert []
    (a.relSrcPathMap.flatMap
      (fun pr => pr.2.map (fun p => (buildOutputId p, buildTscPath a.pkgDir p ext))))

/-! ## Module bundling (`bundleModules`) -/

/-- Observable outcome of one `bundleModules` call: whether rollup was invoked
and which outputs were written. -/
structure ModulesOutcome where
  invoked : Bool
  wroteEsm : Bool
  wroteCjs : Bool
deriving DecidableEq, Repr

/-- `bundleModules(pkgAnalysis, isDev)`: skipped when both kinds are disabled,
otherwise one rollup pass writing ESM iff enabled and CJS iff enabled and not dev. -/
def bundleModules (pkgMeta : SrcPkgMeta) (isDev : Bool) : ModulesOutcome :=
  let buildConfig := pkgMeta.buildConfig.getD {}
  let esmEnabled := buildConfig.esm.getD true
  let cjsEnabled := buildConfig.cjs.getD true
  if !esmEnabled && !cjsEnabled then ⟨false, false, false⟩
  else ⟨true, esmEnabled, !isDev && cjsEnabled⟩

/-! ## IIFE bundling (`bundleIifes` / `buildIifeOutputOptions`) -/

/-- Rollup output options built by `buildIifeOutputOptions` (the minify step then
derives the `.min.js` sibling from `file`). -/
structure IifeOutputOptions where
  file : String
  globals : List (String × String)
  name : Option String
deriving DecidableEq, Repr

/-- `buildIifeOutputOptions(pkgDir, entryConfig, relSrcPath)`; a missing `name`
means `exports: 'none'`. -/
def buildIifeOutputOptions (pkgDir : String) (entryConfig : EntryConfig)
    (relSrcPath : String) : IifeOutputOptions :=
  let iifeConfig := entryConfig.iife.getD {}
  { file := joinPaths [pkgDir, "dist", buildOutputId relSrcPath] ++ ".js"
    globals := iifeConfig.globals.getD []
    name := iifeConfig.name }

/-- One independent rollup pass of the IIFE pipeline. -/
structure IifePass where
  input : String
  output : IifeOutputOptions
deriving DecidableEq, Repr

/-- `bundleIifes(pkgAnalysis)`: one pass per (entry, resolved source path) pair
whose entry declares an `iife` config.  (The source reads
`entryConfigMap[entryId]` without a guard; an id missing from the config map
cannot occur in an `analyzePkg` result.) -/
def bundleIifes (a : PkgAnalysis) : List IifePass :=
  a.relSrcPathMap.flatMap
    (fun pr =>
      match jsLookup a.entryConfigMap pr.1 with
      | some entryConfig =>
        match entryConfig.iife with
        | some _ =>
          pr.2.map (fun relSrcPath =>
            { input := buildTscPath a.pkgDir relSrcPath ".iife.js"
              output := buildIifeOutputOptions a.pkgDir entryConfig relSrcPath })
        | none => []
      | none => [])

/-! ## Plugin pipeline -/

/-- A non-deferring `resolveId` result `{ id, external }`. -/
structure ResolvedId where
  id : String
  external : Bool
deriving DecidableEq, Repr

/-- `computeImportPath(id, importer)`.  `resolvePath(id)` resolves a relative id
against the working directory, modelled by the explicit `cwd` argument. -/
def computeImportPath (cwd : String) (id : String) (importer : Option String) :
    Option String :=
  match importer with
  | none => if isPathRelative id then some (joinPaths [cwd, id]) else some id
  | some imp =>
    if isPathRelative id then some (joinPaths [dirname imp, id]) else none

/-- The merged `{...dependencies, ...peerDependencies}` object of the
externalize-deps plugin (devDependencies are deliberately left out). -/
def depsOf (pkgMeta : SrcPkgMeta) : List (String × String) :=
  jsAssign (jsAssign [] (pkgMeta.dependencies.getD [])) (pkgMeta.peerDependencies.getD [])

/-- `resolveId` of the externalize-deps plugin: external iff the leading
package-name segment is truthy and a key (`in`) of the merged dependency map. -/
def externalizeDepsResolveId (pkgMeta : SrcPkgMeta) (id : String) : Option ResolvedId :=
  match extractPkgName id with
  | some pkgName =>
    if pkgName ≠ "" ∧ (jsLookup (depsOf pkgMeta) pkgName).isSome then
      some { id := id, external := true }
    else none
  | none => none

/-- `resolveId` of the externalize-globals plugin: `if (iifeGlobals[id])` —
the property read must be truthy, so an empty-string global name defers. -/
def externalizeGlobalsResolveId (iifeGlobals : List (String × String)) (id : String) :
    Option ResolvedId :=
  match jsLookup iifeGlobals id with
  | some v => if v ≠ "" then some { id := id, external := true } else none
  | none => none

/-- The `tscPathMap` of the externalize-exports plugin: every resolved source
path of the analysis mapped through `buildTscPath(pkgDir, p, '.js')`, with
value `true`. -/
def exportTscPathMap (pkgDir : String) (relSrcPathMap : List (String × List String)) :
    List (String × Bool) :=
  foldInsert []
    (relSrcPathMap.flatMap
      (fun pr => pr.2.map (fun p => (buildTscPath pkgDir p ".js", true))))

/-- `resolveId` of the externalize-exports plugin (types pass): an import whose
computed path is one of the package's own compiled entry points is rewritten
`.js → .mjs` and marked external. -/
def externalizeExportsResolveId (cwd pkgDir : String)
    (relSrcPathMap : List (String × List String)) (id : String)
    (importer : Option String) : Option ResolvedId :=
  match computeImportPath cwd id importer with
  | some importPath =>
    if (jsLookup (exportTscPathMap pkgDir relSrcPathMap) importPath).isSome then
      some { id := jsToMjs id, external := true }
    else none
  | none => none

/-- The `pathContentMap` of the generated-content plugin: library content keyed
by `buildTscPath(pkgDir, entryId, '.js')`, then iife content keyed by
`buildTscPath(pkgDir, entryId, '.iife.js')`. -/
def pathContentMap (pkgDir : String) (entryContentMap iifeEntryContentMap : List (String × String)) :
    List (String × String) :=
  foldInsert []
    (entryContentMap.map (fun kv => (buildTscPath pkgDir kv.1 ".js", kv.2)) ++
      iifeEntryContentMap.map (fun kv => (buildTscPath pkgDir kv.1 ".iife.js", kv.2)))

/-- `resolveId` of the generated-content plugin: claim the computed import path
when the content map holds truthy (non-empty) text for it. -/
def generatedContentResolveId (cwd pkgDir : String)
    (entryContentMap iifeEntryContentMap : List (String × String)) (id : String)
    (importer : Option String) : Option String :=
  match computeImportPath cwd id importer with
  | some importPath =>
    match jsLookup (pathContentMap pkgDir entryContentMap iifeEntryContentMap) importPath with
    | some content => if content ≠ "" then some importPath else none
    | none => none
  | none => none

/-- `load` of the generated-content plugin: serve the stored text, else defer to
the normal file load. -/
def generatedContentLoad (pkgDir : String)
    (entryContentMap iifeEntryContentMap : List (String × String)) (id : String) :
    Option String :=
  jsLookup (pathContentMap pkgDir entryContentMap iifeEntryContentMap) id

/-! ## Well-formedness side conditions used by the invariants -/

/-- A `/`-separated segment that survives `path.join` normalisation unchanged. -/
def ordinarySeg (s : List Char) : Bool :=
  s ≠ [] && s ≠ ['.'] && s ≠ ['.', '.']

/-- A segment not ending in `.ts` or `.tsx`. -/
def noTsExtSeg (s : List Char) : Bool :=
  match s.reverse with
  | 'x' :: 's' :: 't' :: '.' :: _ => false
  | 's' :: 't' :: '.' :: _ => false
  | _ => true

/-- An expanded entry id whose final path segment is an ordinary name without a
TypeScript extension (every conventional entry id such as `./plugins/foo` is). -/
def cleanEntryId (e : String) : Bool :=
  match (chSplit e.data).getLast? with
  | some s => ordinarySeg s && noTsExtSeg s
  | none => false

/-- Everything `joinPaths [pkgDir, "dist", ".tsc", q]` produces before the final
path segment of `q`: the normalised prefix, ending in `/` when non-empty.
`I` is the list of initial segments of `q`. -/
def joinCore (pkgDir : String) (I : List (List Char)) : List Char :=
  let B := [pkgDir, "dist", ".tsc"].filter (fun p => p ≠ "")
  let u := chJoinSegs (B.map String.data)
  let isAbs : Bool := decide (u.head? = some '/')
  let C := chCollapse isAbs [] (chSplit u ++ I)
  (if isAbs then ['/'] else []) ++ (if C = [] then [] else chJoinSegs C ++ ['/'])

/-- Decidable equality for `Except` results (used to evaluate concrete runs). -/
instance {ε α : Type} [DecidableEq ε] [DecidableEq α] : DecidableEq (Except ε α) :=
  fun a b =>
    match a, b with
    | .ok x, .ok y =>
      if h : x = y then isTrue (congrArg Except.ok h)
      else isFalse (fun hc => h (Except.ok.inj hc))
    | .error x, .error y =>
      if h : x = y then isTrue (congrArg Except.error h)
      else isFalse (fun hc => h (Except.error.inj hc))
    | .ok _, .error _ => isFalse (fun hc => Except.noConfusion hc)
    | .error _, .ok _ => isFalse (fun hc => Except.noConfusion hc)

/-- A small concrete package manifest used to evaluate the analysis on
concrete completion orders. -/
def sampleMeta : SrcPkgMeta :=
  { buildConfig := some
      { exports := some
          [("./index", { generator := none, iife := none }),
           ("./extra", { generator := some "scripts/generator.js", iife := none })] } }

/-- A small concrete environment: every generator module yields the string
`content`, and the source query finds `./index.ts`. -/
def sampleEnv : PkgEnv :=
  { genModules := fun _ => .func (fun _ => .str "content")
    srcQuery := fun _ _ => ["./index.ts"] }

/-- A manifest whose single entry has a generator (used for concrete runs of
the generated-entry invariant). -/
def cexMeta : SrcPkgMeta :=
  { buildConfig := some
      { exports := some [("./main", { generator := some "scripts/empty.js", iife := none })] } }

/-- An environment whose generator module yields the empty string. -/
def cexEnv : PkgEnv :=
  { genModules := fun _ => .func (fun _ => .str "")
    srcQuery := fun _ _ => [] }

/-- The analysis produced from `cexMeta` and `cexEnv`. -/
def cexAnalysis : PkgAnalysis :=
  { pkgDir := "/pkg", pkgMeta := cexMeta
    entryConfigMap := [("./main", { generator := some "scripts/empty.js", iife := none })]
    relSrcPathMap := [("./main", ["./main.ts"])]
    entryContentMap := [("./main", "")]
    iifeEntryContentMap := [] }

/-- A manifest with one wildcard entry backed by a generator. -/
def wMeta : SrcPkgMeta :=
  { buildConfig := some
      { exports := some
          [("./plugins/*", { generator := some "scripts/plugins.js", iife := none })] } }

/-- An environment whose generator module yields a two-key object. -/
def wEnv : PkgEnv :=
  { genModules := fun _ => .func (fun _ => .obj [("a", "ca"), ("b", "cb")])
    srcQuery := fun _ _ => [] }

/-- The analysis produced from `wMeta` and `wEnv`. -/
def wAnalysis : PkgAnalysis :=
  { pkgDir := "/pkg", pkgMeta := wMeta
    entryConfigMap := [("./plugins/*", { generator := some "scripts/plugins.js", iife := none })]
    relSrcPathMap := [("./plugins/*", ["./plugins/a.ts", "./plugins/b.ts"])]
    entryContentMap := [("./plugins/a", "ca"), ("./plugins/b", "cb")]
    iifeEntryContentMap := [] }

/-- A manifest whose single entry is the package root `"."`, backed by a
generator. -/
def rootMeta : SrcPkgMeta :=
  { buildConfig := some
      { exports := some [(".", { generator := some "scripts/main.js", iife := none })] } }

/-- An environment whose generator module yields the non-empty string `x`. -/
def rootEnv : PkgEnv :=
  { genModules := fun _ => .func (fun _ => .str "x")
    srcQuery := fun _ _ => [] }

/-- The analysis produced from `rootMeta` and `rootEnv`. -/
def rootAnalysis : PkgAnalysis :=
  { pkgDir := "/pkg", pkgMeta := rootMeta
    entryConfigMap := [(".", { generator := some "scripts/main.js", iife := none })]
    relSrcPathMap := [(".", ["..ts"])]
    entryContentMap := [(".", "x")]
    iifeEntryContentMap := [] }

/-! ## Association-list lemmas (JS object semantics) -/

theorem jsKeys_nil {α : Type} : jsKeys ([] : List (String × α)) = [] := rfl

theorem jsKeys_cons {α : Type} (kv : String × α) (m : List (String × α)) :
    jsKeys (kv :: m) = kv.1 :: jsKeys m := rfl

theorem jsKeys_append {α : Type} (m1 m2 : List (String × α)) :
    jsKeys (m1 ++ m2) = jsKeys m1 ++ jsKeys m2 :=
  List.map_append _ _ _

theorem jsLookup_cons {α : Type} (k1 : String) (v1 : α) (m : List (String × α))
    (j : String) :
    jsLookup ((k1, v1) :: m) j = if k1 = j then some v1 else jsLookup m j := rfl

theorem jsInsert_cons_ne {α : Type} (k1 : String) (v1 : α) (m : List (String × α))
    (k : String) (v : α) (h : k1 ≠ k) :
    jsInsert ((k1, v1) :: m) k v = (k1, v1) :: jsInsert m k v := by
  simp [jsInsert, h]

theorem jsInsert_cons_eq {α : Type} (v1 : α) (m : List (String × α)) (k : String)
    (v : α) : jsInsert ((k, v1) :: m) k v = (k, v) :: m := by
  simp [jsInsert]

theorem jsLookup_jsInsert {α : Type} (m : List (String × α)) (k : String) (v : α)
    (j : String) :
    jsLookup (jsInsert m k v) j = if j = k then some v else jsLookup m j := by
  induction m with
  | nil =>
    rw [show jsInsert ([] : List (String × α)) k v = [(k, v)] from rfl, jsLookup_cons]
    by_cases h : k = j
    · rw [if_pos h, if_pos h.symm]
    · rw [if_neg h, if_neg (fun hc => h hc.symm)]
  | cons kv rest ih =>
    obtain ⟨k1, v1⟩ := kv
    by_cases h1 : k1 = k
    · subst h1
      rw [jsInsert_cons_eq, jsLookup_cons, jsLookup_cons]
      by_cases h3 : j = k1
      · rw [if_pos h3.symm, if_pos h3]
      · rw [if_neg (fun hc => h3 hc.symm), if_neg h3, if_neg (fun hc => h3 hc.symm)]
    · rw [jsInsert_cons_ne _ _ _ _ _ h1, jsLookup_cons, jsLookup_cons, ih]
      by_cases h2 : k1 = j
      · rw [if_pos h2, if_neg (show ¬j = k from fun hc => h1 (h2.trans hc)), if_pos h2]
      · rw [if_neg h2]
        by_cases h3 : j = k
        · rw [if_pos h3, if_pos h3]
        · rw [if_neg h3, if_neg h3, if_neg h2]

theorem mem_keys_jsInsert {α : Type} (m : List (String × α)) (k : String) (v : α)
    (j : String) :
    j ∈ jsKeys (jsInsert m k v) ↔ j = k ∨ j ∈ jsKeys m := by
  induction m with
  | nil => simp [jsInsert, jsKeys]
  | cons kv rest ih =>
    obtain ⟨k1, v1⟩ := kv
    by_cases h1 : k1 = k
    · subst h1
      rw [jsInsert_cons_eq, jsKeys_cons, jsKeys_cons]
      simp only [List.mem_cons]
      tauto
    · rw [jsInsert_cons_ne _ _ _ _ _ h1, jsKeys_cons, jsKeys_cons]
      simp only [List.mem_cons, ih]
      tauto

theorem keys_jsInsert_of_mem {α : Type} (m : List (String × α)) (k : String) (v : α)
    (h : k ∈ jsKeys m) : jsKeys (jsInsert m k v) = jsKeys m := by
  induction m with
  | nil => simp [jsKeys] at h
  | cons kv rest ih =>
    obtain ⟨k1, v1⟩ := kv
    by_cases h1 : k1 = k
    · subst h1
      rw [jsInsert_cons_eq, jsKeys_cons, jsKeys_cons]
    · rw [jsKeys_cons, List.mem_cons] at h
      rcases h with h2 | h2
      · exact absurd h2.symm h1
      · rw [jsInsert_cons_ne _ _ _ _ _ h1, jsKeys_cons, jsKeys_cons, ih h2]

theorem keys_jsInsert_of_not_mem {α : Type} (m : List (String × α)) (k : String) (v : α)
    (h : k ∉ jsKeys m) : jsKeys (jsInsert m k v) = jsKeys m ++ [k] := by
  induction m with
  | nil => simp [jsInsert, jsKeys]
  | cons kv rest ih =>
    obtain ⟨k1, v1⟩ := kv
    rw [jsKeys_cons, List.mem_cons] at h
    push_neg at h
    rw [jsInsert_cons_ne _ _ _ _ _ (Ne.symm h.1), jsKeys_cons, jsKeys_cons, ih h.2]
    rfl

theorem jsInsert_of_not_mem {α : Type} (m : List (String × α)) (k : String) (v : α)
    (h : k ∉ jsKeys m) : jsInsert m k v = m ++ [(k, v)] := by
  induction m with
  | nil => simp [jsInsert]
  | cons kv rest ih =>
    obtain ⟨k1, v1⟩ := kv
    rw [jsKeys_cons, List.mem_cons] at h
    push_neg at h
    rw [jsInsert_cons_ne _ _ _ _ _ (Ne.symm h.1), ih h.2]
    rfl

theorem nodup_keys_jsInsert {α : Type} (m : List (String × α)) (k : String) (v : α)
    (h : (jsKeys m).Nodup) : (jsKeys (jsInsert m k v)).Nodup := by
  by_cases hk : k ∈ jsKeys m
  · rw [keys_jsInsert_of_mem m k v hk]; exact h
  · rw [keys_jsInsert_of_not_mem m k v hk]
    exact List.Nodup.append h (List.nodup_singleton k) (by simpa using hk)

theorem mem_keys_iff_lookup_isSome {α : Type} (m : List (String × α)) (k : String) :
    k ∈ jsKeys m ↔ (jsLookup m k).isSome := by
  induction m with
  | nil => simp [jsKeys, jsLookup]
  | cons kv rest ih =>
    obtain ⟨k1, v1⟩ := kv
    rw [jsKeys_cons, List.mem_cons]
    show _ ↔ (if k1 = k then some v1 else jsLookup rest k).isSome = true
    by_cases h : k1 = k
    · rw [if_pos h]
      simp [h.symm]
    · rw [if_neg h]
      rw [← ih]
      have : ¬k = k1 := fun hc => h hc.symm
      tauto

theorem jsLookup_mem {α : Type} (m : List (String × α)) (k : String) (v : α)
    (h : jsLookup m k = some v) : (k, v) ∈ m := by
  induction m with
  | nil => exact absurd h (by simp [jsLookup])
  | cons kv rest ih =>
    obtain ⟨k1, v1⟩ := kv
    rw [show jsLookup ((k1, v1) :: rest) k = if k1 = k then some v1 else jsLookup rest k
      from rfl] at h
    by_cases h1 : k1 = k
    · rw [if_pos h1] at h
      rw [List.mem_cons]
      left
      rw [h1, Option.some.inj h]
    · rw [if_neg h1] at h
      exact List.mem_cons_of_mem _ (ih h)

theorem mem_jsInsert {α : Type} (m : List (String × α)) (k : String) (v : α)
    (q : String × α) (h : q ∈ jsInsert m k v) : q = (k, v) ∨ q ∈ m := by
  induction m with
  | nil =>
    left
    simpa [jsInsert] using h
  | cons kv rest ih =>
    obtain ⟨k1, v1⟩ := kv
    by_cases h1 : k1 = k
    · subst h1
      rw [jsInsert_cons_eq, List.mem_cons] at h
      rcases h with h2 | h2
      · exact Or.inl h2
      · exact Or.inr (List.mem_cons_of_mem _ h2)
    · rw [jsInsert_cons_ne _ _ _ _ _ h1, List.mem_cons] at h
      rcases h with h2 | h2
      · exact Or.inr (by simp [h2])
      · rcases ih h2 with h3 | h3
        · exact Or.inl h3
        · exact Or.inr (List.mem_cons_of_mem _ h3)

theorem lookup_eq_of_mem_nodup {α : Type} (m : List (String × α))
    (hnd : (jsKeys m).Nodup) (k : String) (v : α) (hl : jsLookup m k = some v) :
    ∀ q ∈ m, q.1 = k → q.2 = v := by
  induction m with
  | nil => intro q hq; exact absurd hq (by simp)
  | cons kv rest ih =>
    obtain ⟨k1, v1⟩ := kv
    rw [jsKeys_cons, List.nodup_cons] at hnd
    intro q hq hqk
    rw [show jsLookup ((k1, v1) :: rest) k = if k1 = k then some v1 else jsLookup rest k
      from rfl] at hl
    rcases List.mem_cons.mp hq with h2 | h2
    · subst h2
      simp only at hqk
      subst hqk
      rw [if_pos rfl] at hl
      exact Option.some.inj hl
    · by_cases h1 : k1 = k
      · exfalso
        apply hnd.1
        have hmem : q.1 ∈ jsKeys rest := List.mem_map_of_mem Prod.fst h2
        rw [hqk, ← h1] at hmem
        exact hmem
      · rw [if_neg h1] at hl
        exact ih hnd.2 hl q h2 hqk

/-! ## `jsAssign` / `foldInsert` lemmas -/

theorem foldInsert_eq_jsAssign {α : Type} (init pairs : List (String × α)) :
    foldInsert init pairs = jsAssign init pairs := rfl

theorem jsAssign_nil_right {α : Type} (m : List (String × α)) : jsAssign m [] = m := rfl

theorem jsAssign_append {α : Type} (m l1 l2 : List (String × α)) :
    jsAssign m (l1 ++ l2) = jsAssign (jsAssign m l1) l2 :=
  List.foldl_append _ _ _ _

theorem mem_keys_jsAssign {α : Type} (src : List (String × α)) :
    ∀ (m : List (String × α)) (k : String),
      k ∈ jsKeys (jsAssign m src) ↔ k ∈ jsKeys m ∨ k ∈ jsKeys src := by
  induction src with
  | nil => intro m k; simp [jsAssign, jsKeys]
  | cons kv rest ih =>
    intro m k
    show k ∈ jsKeys (jsAssign (jsInsert m kv.1 kv.2) rest) ↔ _
    rw [ih]
    rw [mem_keys_jsInsert]
    simp only [jsKeys, List.map_cons, List.mem_cons]
    tauto

theorem nodup_keys_jsAssign {α : Type} (src : List (String × α)) :
    ∀ (m : List (String × α)), (jsKeys m).Nodup → (jsKeys (jsAssign m src)).Nodup := by
  induction src with
  | nil => intro m h; exact h
  | cons kv rest ih =>
    intro m h
    exact ih _ (nodup_keys_jsInsert m kv.1 kv.2 h)

theorem jsLookup_jsAssign_agree {α : Type} (src : List (String × α)) :
    ∀ (m : List (String × α)) (k : String) (v : α),
      (∀ q ∈ src, q.1 = k → q.2 = v) →
      jsLookup (jsAssign m src) k = if k ∈ jsKeys src then some v else jsLookup m k := by
  induction src with
  | nil => intro m k v _; simp [jsAssign, jsKeys]
  | cons q rest ih =>
    intro m k v hag
    show jsLookup (jsAssign (jsInsert m q.1 q.2) rest) k = _
    rw [ih _ k v (fun q2 hq2 => hag q2 (List.mem_cons_of_mem _ hq2))]
    rw [jsKeys_cons]
    by_cases h1 : k ∈ jsKeys rest
    · rw [if_pos h1, if_pos (List.mem_cons_of_mem _ h1)]
    · rw [if_neg h1, jsLookup_jsInsert]
      by_cases h2 : k = q.1
      · rw [if_pos h2, if_pos (by rw [h2]; exact List.mem_cons_self _ _),
          hag q (List.mem_cons_self _ _) h2.symm]
      · rw [if_neg h2,
          if_neg (by rw [List.mem_cons]; push_neg; exact ⟨h2, h1⟩)]

theorem jsAssign_eq_append {α : Type} (pairs : List (String × α)) :
    ∀ (init : List (String × α)), (∀ q ∈ pairs, q.1 ∉ jsKeys init) →
      (jsKeys pairs).Nodup → jsAssign init pairs = init ++ pairs := by
  induction pairs with
  | nil => intro init _ _; simp [jsAssign]
  | cons q rest ih =>
    intro init hd hnd
    simp only [jsKeys, List.map_cons, List.nodup_cons] at hnd
    show jsAssign (jsInsert init q.1 q.2) rest = _
    rw [jsInsert_of_not_mem init q.1 q.2 (hd q (List.mem_cons_self _ _))]
    rw [ih (init ++ [(q.1, q.2)])
        (by
          intro q2 hq2
          simp only [jsKeys, List.map_append, List.mem_append, List.map_cons]
          push_neg
          constructor
          · exact hd q2 (List.mem_cons_of_mem _ hq2)
          · intro hmem
            simp only [List.map_nil, List.mem_singleton] at hmem
            exact hnd.1 (hmem ▸ List.mem_map_of_mem Prod.fst hq2))
        hnd.2]
    simp

/-! ## Wildcard expansion lemmas -/

theorem hasWildcard_iff (e : String) : hasWildcard e = true ↔ '*' ∈ e.data := by
  simp [hasWildcard, List.contains]

theorem chReplaceFirstStar_decomp (cs : List Char) (h : '*' ∈ cs) :
    ∃ p r, cs = p ++ '*' :: r ∧ '*' ∉ p ∧
      ∀ k : List Char, chReplaceFirstStar cs k = p ++ (k ++ r) := by
  induction cs with
  | nil => exact absurd h (List.not_mem_nil _)
  | cons c rest ih =>
    by_cases hc : c = '*'
    · subst hc
      exact ⟨[], rest, rfl, List.not_mem_nil _, fun k => by simp [chReplaceFirstStar]⟩
    · have h2 : '*' ∈ rest := by
        rcases List.mem_cons.mp h with h3 | h3
        · exact absurd h3.symm hc
        · exact h3
      obtain ⟨p, r, he, hnp, hf⟩ := ih h2
      refine ⟨c :: p, r, by rw [he]; rfl, ?_, ?_⟩
      · intro hm
        rcases List.mem_cons.mp hm with h3 | h3
        · exact hc h3.symm
        · exact hnp h3
      · intro k
        show (if c = '*' then k ++ rest else c :: chReplaceFirstStar rest k) = _
        rw [if_neg hc, hf k]
        rfl

theorem replaceFirstStar_inj (e : String) (hw : hasWildcard e = true) :
    Function.Injective (replaceFirstStar e) := by
  intro k1 k2 heq
  have hmem : '*' ∈ e.data := (hasWildcard_iff e).mp hw
  obtain ⟨p, r, _, _, hf⟩ := chReplaceFirstStar_decomp e.data hmem
  have h2 : p ++ (k1.data ++ r) = p ++ (k2.data ++ r) := by
    have hd := congrArg String.data heq
    rwa [show (replaceFirstStar e k1).data = chReplaceFirstStar e.data k1.data from rfl,
      show (replaceFirstStar e k2).data = chReplaceFirstStar e.data k2.data from rfl,
      hf, hf] at hd
  have h3 : k1.data = k2.data :=
    List.append_cancel_right (List.append_cancel_left h2)
  exact congrArg String.mk (by cases k1; cases k2; simpa using h3)

/-! ## C1 and C2: generated entry content -/

/-- C1: `generateEntryContent` raises a configuration error if and only if the
generator module default export is not callable, or a string result meets a
wildcard entry id, or an object result meets a non-wildcard entry id, or the
result is neither a string nor an object; in every other case a content mapping
is returned without error. -/
theorem generateEntryContent_error_iff (entryId : String) (gen : GenModuleDefault) :
    (∃ msg, generateEntryContent entryId gen = .error msg) ↔
      (gen = .notFunc ∨
        ∃ f, gen = .func f ∧
          ((∃ s, f entryId = .str s ∧ hasWildcard entryId = true) ∨
           (∃ kvs, f entryId = .obj kvs ∧ hasWildcard entryId = false) ∨
           f entryId = .other)) := by
  cases gen with
  | notFunc => simp [generateEntryContent]
  | func f =>
    cases hres : f entryId with
    | str s =>
      by_cases hw : hasWildcard entryId <;>
        simp [generateEntryContent, hres, hw, GenModuleDefault.func.injEq]
    | obj kvs =>
      by_cases hw : hasWildcard entryId <;>
        simp [generateEntryContent, hres, hw, GenModuleDefault.func.injEq]
    | other =>
      simp [generateEntryContent, hres, GenModuleDefault.func.injEq]

/-- C2: on success the generator result is normalised: a string result yields
exactly the single mapping entry keyed by the entry id; an object result yields
one entry per object key, keyed by the entry id with its wildcard replaced by
that key and holding that key's text; and each expanded entry id becomes its own
input-map key (hence its own output identifier). -/
theorem generateEntryContent_normalizes (entryId : String) (f : String → GenResult) :
    (∀ s : String, hasWildcard entryId = false → f entryId = .str s →
      generateEntryContent entryId (.func f) = .ok [(entryId, s)]) ∧
    (∀ kvs : List (String × String), hasWildcard entryId = true → f entryId = .obj kvs →
      (jsKeys kvs).Nodup →
      generateEntryContent entryId (.func f) =
        .ok (kvs.map (fun kv => (replaceFirstStar entryId kv.1, kv.2))) ∧
      ∀ a : PkgAnalysis,
        a.relSrcPathMap =
          [(entryId, kvs.map (fun kv => replaceFirstStar entryId kv.1 ++ ".ts"))] →
        ∀ kv ∈ kvs,
          buildOutputId (replaceFirstStar entryId kv.1 ++ ".ts") ∈
            jsKeys (buildInputMap a ".js")) := by
  constructor
  · intro s hw hres
    simp [generateEntryContent, hres, hw, jsInsert]
  · intro kvs hw hres hnd
    have hfold :
        kvs.foldl (fun m kv => jsInsert m (replaceFirstStar entryId kv.1) kv.2) [] =
          kvs.map (fun kv => (replaceFirstStar entryId kv.1, kv.2)) := by
      have h1 :
          kvs.foldl (fun m kv => jsInsert m (replaceFirstStar entryId kv.1) kv.2) [] =
            jsAssign [] (kvs.map (fun kv => (replaceFirstStar entryId kv.1, kv.2))) := by
        rw [jsAssign, List.foldl_map]
      rw [h1, jsAssign_eq_append _ [] (by intro q hq; simp [jsKeys])
        (by
          show (List.map Prod.fst _).Nodup
          rw [List.map_map]
          have : (Prod.fst ∘ fun kv : String × String =>
              (replaceFirstStar entryId kv.1, kv.2)) =
              (replaceFirstStar entryId) ∘ Prod.fst := rfl
          rw [this, ← List.map_map]
          exact List.Nodup.map (replaceFirstStar_inj entryId hw) hnd)]
      simp
    constructor
    · simp [generateEntryContent, hres, hw, hfold]
    · intro a ha kv hkv
      show _ ∈ jsKeys (foldInsert [] _)
      rw [foldInsert_eq_jsAssign, ha, mem_keys_jsAssign]
      right
      simp only [List.flatMap_cons, List.flatMap_nil, List.append_nil, jsKeys,
        List.map_map]
      exact List.mem_map.mpr ⟨kv, hkv, rfl⟩

/-- C2 witness: end-to-end scenario 2 — entry `./plugins/*` with generator result
`{a, b}` expands to `./plugins/a` and `./plugins/b`, each an input-map key. -/
theorem generateEntryContent_normalizes_witness :
    generateEntryContent "./plugins/*"
        (.func (fun _ => .obj [("a", "ca"), ("b", "cb")])) =
      .ok [("./plugins/a", "ca"), ("./plugins/b", "cb")] ∧
    buildOutputId ("./plugins/a" ++ ".ts") ∈
      jsKeys (buildInputMap
        { pkgDir := "/pkg", pkgMeta := {}, entryConfigMap := []
          relSrcPathMap := [("./plugins/*", ["./plugins/a.ts", "./plugins/b.ts"])]
          entryContentMap := [], iifeEntryContentMap := [] } ".js") := by
  have h := (generateEntryContent_normalizes "./plugins/*"
      (fun _ => .obj [("a", "ca"), ("b", "cb")])).2
    [("a", "ca"), ("b", "cb")] (by decide) rfl (by decide)
  constructor
  · rw [h.1]
    decide
  · have h2 := h.2
      { pkgDir := "/pkg", pkgMeta := {}, entryConfigMap := []
        relSrcPathMap := [("./plugins/*", ["./plugins/a.ts", "./plugins/b.ts"])]
        entryContentMap := [], iifeEntryContentMap := [] }
      (by decide) ("a", "ca") (by decide)
    have h3 : replaceFirstStar "./plugins/*" ("a", "ca").1 = "./plugins/a" := by decide
    rw [h3] at h2
    exact h2

/-! ## C3: dependency externalization -/

theorem extractPkgName_ne_empty (id : String) (n : String)
    (h : extractPkgName id = some n) : n ≠ "" := by
  unfold extractPkgName at h
  split at h
  · split at h
    · exact absurd h (by simp)
    · split at h
      · exact absurd h (by simp)
      · intro hc
        rw [← Option.some.inj h] at hc
        exact String.noConfusion hc (fun hd => List.noConfusion hd)
    · exact absurd h (by simp)
  · split at h
    · exact absurd h (by simp)
    · intro hc
      rw [← Option.some.inj h] at hc
      exact absurd (congrArg String.data hc) (by assumption)

theorem mem_keys_depsOf (pkgMeta : SrcPkgMeta) (n : String) :
    n ∈ jsKeys (depsOf pkgMeta) ↔
      n ∈ jsKeys (pkgMeta.dependencies.getD []) ∨
        n ∈ jsKeys (pkgMeta.peerDependencies.getD []) := by
  unfold depsOf
  rw [mem_keys_jsAssign, mem_keys_jsAssign]
  simp [jsKeys]

/-- C3: the externalize-deps plugin marks an import external iff its leading
package-name segment is a key of the runtime or peer dependencies; in particular
`lodash/debounce` is externalized exactly when `lodash` is a runtime or peer
dependency, and the result never depends on `devDependencies`. -/
theorem externalizeDeps_external_iff (pkgMeta : SrcPkgMeta) (id : String) :
    (externalizeDepsResolveId pkgMeta id = some { id := id, external := true } ↔
      ∃ n, extractPkgName id = some n ∧
        (n ∈ jsKeys (pkgMeta.dependencies.getD []) ∨
          n ∈ jsKeys (pkgMeta.peerDependencies.getD []))) ∧
    (externalizeDepsResolveId pkgMeta "lodash/debounce" =
        some { id := "lodash/debounce", external := true } ↔
      ("lodash" ∈ jsKeys (pkgMeta.dependencies.getD []) ∨
        "lodash" ∈ jsKeys (pkgMeta.peerDependencies.getD []))) ∧
    (∀ dd, externalizeDepsResolveId { pkgMeta with devDependencies := dd } id =
      externalizeDepsResolveId pkgMeta id) := by
  have hgen : ∀ j : String,
      externalizeDepsResolveId pkgMeta j = some { id := j, external := true } ↔
        ∃ n, extractPkgName j = some n ∧
          (n ∈ jsKeys (pkgMeta.dependencies.getD []) ∨
            n ∈ jsKeys (pkgMeta.peerDependencies.getD [])) := by
    intro j
    cases hext : extractPkgName j with
    | none => simp [externalizeDepsResolveId, hext]
    | some n =>
      have hne := extractPkgName_ne_empty j n hext
      have hmem := mem_keys_depsOf pkgMeta n
      rw [mem_keys_iff_lookup_isSome] at hmem
      simp only [externalizeDepsResolveId, hext]
      by_cases hs : (jsLookup (depsOf pkgMeta) n).isSome
      · rw [if_pos ⟨hne, hs⟩]
        constructor
        · intro _
          exact ⟨n, rfl, hmem.mp hs⟩
        · intro _
          rfl
      · rw [if_neg (fun hc => hs hc.2)]
        constructor
        · intro hc
          exact absurd hc (by simp)
        · rintro ⟨n2, hn2, hd⟩
          rw [← Option.some.inj hn2] at hd
          exact absurd (hmem.mpr hd) hs
  refine ⟨hgen id, ?_, ?_⟩
  · rw [hgen "lodash/debounce"]
    constructor
    · rintro ⟨n, hn, hd⟩
      have : n = "lodash" := by
        have he : extractPkgName "lodash/debounce" = some "lodash" := by decide
        rw [he] at hn
        exact (Option.some.inj hn).symm
      rwa [this] at hd
    · intro hd
      exact ⟨"lodash", by decide, hd⟩
  · intro dd
    rfl

/-! ## C4: module-pipeline gating -/

/-- C4: `bundleModules` performs no bundler invocation iff both the `esm` and
`cjs` flags are disabled (each defaulting to enabled when absent); when it runs,
it writes ESM output exactly when `esm` is enabled and CJS output exactly when
`cjs` is enabled and dev mode is off — so in dev mode with `esm` disabled and
`cjs` enabled the pass runs but writes neither output. -/
theorem bundleModules_flag_gating (pkgMeta : SrcPkgMeta) (isDev : Bool) :
    ((bundleModules pkgMeta isDev).invoked = false ↔
      (pkgMeta.buildConfig.getD {}).esm.getD true = false ∧
      (pkgMeta.buildConfig.getD {}).cjs.getD true = false) ∧
    ((bundleModules pkgMeta isDev).wroteEsm =
      ((bundleModules pkgMeta isDev).invoked &&
        (pkgMeta.buildConfig.getD {}).esm.getD true)) ∧
    ((bundleModules pkgMeta isDev).wroteCjs =
      ((bundleModules pkgMeta isDev).invoked && !isDev &&
        (pkgMeta.buildConfig.getD {}).cjs.getD true)) ∧
    bundleModules
      ⟨pkgMeta.dependencies, pkgMeta.peerDependencies, pkgMeta.devDependencies,
        some ⟨some false, some true, (pkgMeta.buildConfig.getD {}).types,
          (pkgMeta.buildConfig.getD {}).exports⟩⟩
      true = ⟨true, false, false⟩ := by
  refine ⟨?_, ?_, ?_, ?_⟩ <;>
    cases he : (pkgMeta.buildConfig.getD {}).esm.getD true <;>
      cases hc : (pkgMeta.buildConfig.getD {}).cjs.getD true <;>
        cases isDev <;>
          simp [bundleModules, he, hc]

/-! ## C5: output identifiers -/

/-- C5: `buildOutputId` is a pure deterministic function of the relative source
path, stripping one leading `./` and one trailing `.js`/`.jsx`/`.ts`/`.tsx`
extension: `./foo/bar.ts ↦ foo/bar` and `./index.tsx ↦ index`, stable across
repeated calls. -/
theorem buildOutputId_pure_examples :
    buildOutputId "./foo/bar.ts" = "foo/bar" ∧
    buildOutputId "./index.tsx" = "index" ∧
    ∀ p : String, buildOutputId p = buildOutputId p :=
  ⟨by decide, by decide, fun _ => rfl⟩

/-! ## C8: globals externalization -/

/-- C8 counterexample: with globals `{"jquery": ""}` the specifier `jquery` is a
key of the entry globals map, yet `resolveId` defers because the property read
`iifeGlobals[id]` is falsy — refuting externalization for every key regardless
of the associated global-name value. -/
theorem externalizeGlobals_counterexample :
    "jquery" ∈ jsKeys [("jquery", "")] ∧
    externalizeGlobalsResolveId [("jquery", "")] "jquery" = none := by
  decide

/-- C8 amended: the externalize-globals plugin marks an import specifier external
iff the entry globals map holds a truthy (non-empty) global name for that key;
for non-empty values such as `{"jquery": "jQuery"}` this is externalization for
every key of the map. -/
theorem externalizeGlobals_external_iff_truthy (iifeGlobals : List (String × String))
    (id : String) :
    externalizeGlobalsResolveId iifeGlobals id = some { id := id, external := true } ↔
      ∃ v, jsLookup iifeGlobals id = some v ∧ v ≠ "" := by
  cases h : jsLookup iifeGlobals id with
  | none => simp [externalizeGlobalsResolveId, h]
  | some v =>
    by_cases hv : v = "" <;> simp [externalizeGlobalsResolveId, h, hv]

/-! ## Path normalisation lemmas -/

theorem strData_append (s t : String) : (s ++ t).data = s.data ++ t.data := by
  cases s
  cases t
  rfl

theorem chSplit_ne_nil (cs : List Char) : chSplit cs ≠ [] := by
  induction cs with
  | nil => simp [chSplit]
  | cons c rest ih =>
    unfold chSplit
    cases h : chSplit rest with
    | nil => exact absurd h ih
    | cons s ss =>
      by_cases hc : c = '/' <;> simp [hc]

theorem chSplit_cons_slash (w : List Char) : chSplit ('/' :: w) = [] :: chSplit w := by
  rcases h : chSplit w with _ | ⟨s, ss⟩
  · exact absurd h (chSplit_ne_nil w)
  · have e1 : chSplit ('/' :: w) =
        (match chSplit w with
          | [] => [['/']]
          | seg :: segs => if ('/' : Char) = '/' then [] :: seg :: segs
            else ('/' :: seg) :: segs) := rfl
    rw [e1, h]
    simp

theorem chSplit_cons_ne (c : Char) (w : List Char) (s : List Char) (ss : List (List Char))
    (hc : c ≠ '/') (hw : chSplit w = s :: ss) : chSplit (c :: w) = (c :: s) :: ss := by
  have e1 : chSplit (c :: w) =
      (match chSplit w with
        | [] => [[c]]
        | seg :: segs => if c = '/' then [] :: seg :: segs
          else (c :: seg) :: segs) := rfl
  rw [e1, hw]
  simp [hc]

theorem chSplit_noslash (ys : List Char) (hys : '/' ∉ ys) : chSplit ys = [ys] := by
  induction ys with
  | nil => rfl
  | cons c rest ih =>
    have hc : c ≠ '/' := fun h => hys (h ▸ List.mem_cons_self c rest)
    have hrest : '/' ∉ rest := fun h => hys (List.mem_cons_of_mem c h)
    exact chSplit_cons_ne c rest rest [] hc (ih hrest)

theorem chSplit_dotslash (x : List Char) : chSplit ('.' :: '/' :: x) = ['.'] :: chSplit x := by
  rw [chSplit_cons_ne '.' ('/' :: x) [] (chSplit x) (by decide) (chSplit_cons_slash x)]

theorem chSplit_append_noslash (ys : List Char) (hys : '/' ∉ ys) :
    ∀ (xs : List Char) (I : List (List Char)) (L : List Char),
      chSplit xs = I ++ [L] → chSplit (xs ++ ys) = I ++ [L ++ ys] := by
  intro xs
  induction xs with
  | nil =>
    intro I L h
    rw [show chSplit ([] : List Char) = [[]] from rfl] at h
    rcases I with _ | ⟨i, I2⟩
    · simp only [List.nil_append] at h ⊢
      have hL : L = [] := by simpa using h
      subst hL
      rw [List.nil_append, chSplit_noslash ys hys]
    · exact absurd h (by simp)
  | cons c xs ih =>
    intro I L h
    rcases hsplit : chSplit xs with _ | ⟨s, ss⟩
    · exact absurd hsplit (chSplit_ne_nil xs)
    · by_cases hc : c = '/'
      · subst hc
        rw [chSplit_cons_slash] at h
        rw [hsplit] at h
        rcases I with _ | ⟨i, I2⟩
        · exact absurd (congrArg List.length h) (by simp)
        · have hi : i = [] := by
            have := congrArg List.head? h
            simpa using this.symm
          have htail : chSplit xs = I2 ++ [L] := by
            have := congrArg List.tail h
            rw [hsplit]
            simpa using this
          subst hi
          show chSplit ('/' :: (xs ++ ys)) = _
          rw [chSplit_cons_slash, ih I2 L htail]
          rfl
      · rw [chSplit_cons_ne c xs s ss hc hsplit] at h
        rcases I with _ | ⟨i, I2⟩
        · have hL : L = c :: s ∧ ss = [] := by
            constructor
            · have := congrArg List.head? h
              simpa using this.symm
            · have := congrArg List.tail h
              simpa using this.symm
          have hxs : chSplit xs = [] ++ [s] := by rw [hsplit, hL.2]; rfl
          have h2 := ih [] s hxs
          rw [List.nil_append] at h2
          rcases hsplit2 : chSplit (xs ++ ys) with _ | ⟨s2, ss2⟩
          · exact absurd hsplit2 (chSplit_ne_nil _)
          · have hs2 : s2 = s ++ ys ∧ ss2 = [] := by
              rw [hsplit2] at h2
              constructor
              · have := congrArg List.head? h2
                simpa using this
              · have := congrArg List.tail h2
                simpa using this
            show chSplit (c :: (xs ++ ys)) = _
            rw [chSplit_cons_ne c (xs ++ ys) s2 ss2 hc hsplit2, hs2.1, hs2.2, hL.1]
            rfl
        · have hi : i = c :: s ∧ ss = I2 ++ [L] := by
            constructor
            · have := congrArg List.head? h
              simpa using this.symm
            · have := congrArg List.tail h
              simpa using this
          have hxs : chSplit xs = (s :: I2) ++ [L] := by rw [hsplit, hi.2]; rfl
          have h2 := ih (s :: I2) L hxs
          rcases hsplit2 : chSplit (xs ++ ys) with _ | ⟨s2, ss2⟩
          · exact absurd hsplit2 (chSplit_ne_nil _)
          · have hs2 : s2 = s ∧ ss2 = I2 ++ [L ++ ys] := by
              rw [hsplit2] at h2
              constructor
              · have := congrArg List.head? h2
                simpa using this
              · have := congrArg List.tail h2
                simpa using this
            show chSplit (c :: (xs ++ ys)) = _
            rw [chSplit_cons_ne c (xs ++ ys) s2 ss2 hc hsplit2, hs2.1, hs2.2, hi.1]
            rfl

theorem chCollapse_nil (ab : Bool) (acc : List (List Char)) :
    chCollapse ab acc [] = acc.reverse := rfl

theorem chCollapse_cons (ab : Bool) (acc : List (List Char)) (s : List Char)
    (rest : List (List Char)) :
    chCollapse ab acc (s :: rest) =
      if s = [] ∨ s = ['.'] then chCollapse ab acc rest
      else if s = ['.', '.'] then
        (match acc with
          | [] => if ab then chCollapse ab [] rest else chCollapse ab [['.', '.']] rest
          | t :: acc2 =>
            if t = ['.', '.'] then chCollapse ab (s :: t :: acc2) rest
            else chCollapse ab acc2 rest)
      else chCollapse ab (s :: acc) rest := rfl

theorem chCollapse_middle_dot (ab : Bool) :
    ∀ (S acc rest : List (List Char)),
      chCollapse ab acc (S ++ ['.'] :: rest) = chCollapse ab acc (S ++ rest) := by
  intro S
  induction S with
  | nil =>
    intro acc rest
    show chCollapse ab acc (['.'] :: rest) = _
    rw [chCollapse_cons]
    simp
  | cons x S ih =>
    intro acc rest
    show chCollapse ab acc (x :: (S ++ ['.'] :: rest)) = chCollapse ab acc (x :: (S ++ rest))
    rw [chCollapse_cons, chCollapse_cons]
    by_cases h1 : x = [] ∨ x = ['.']
    · rw [if_pos h1, if_pos h1, ih]
    · rw [if_neg h1, if_neg h1]
      by_cases h2 : x = ['.', '.']
      · rw [if_pos h2, if_pos h2]
        cases acc with
        | nil => cases ab <;> simp <;> exact ih _ _
        | cons t acc2 =>
          by_cases ht : t = ['.', '.']
          · simp only [if_pos ht]
            exact ih _ _
          · simp only [if_neg ht]
            exact ih _ _
      · rw [if_neg h2, if_neg h2, ih]

theorem chCollapse_snoc_ordinary (ab : Bool) (s : List Char)
    (hs1 : s ≠ []) (hs2 : s ≠ ['.']) (hs3 : s ≠ ['.', '.']) :
    ∀ (L acc : List (List Char)),
      chCollapse ab acc (L ++ [s]) = chCollapse ab acc L ++ [s] := by
  intro L
  induction L with
  | nil =>
    intro acc
    show chCollapse ab acc [s] = chCollapse ab acc [] ++ [s]
    rw [chCollapse_cons, if_neg (by rintro (hc | hc); exacts [hs1 hc, hs2 hc]),
      if_neg hs3, chCollapse_nil, chCollapse_nil]
    simp
  | cons x L ih =>
    intro acc
    show chCollapse ab acc (x :: (L ++ [s])) = chCollapse ab acc (x :: L) ++ [s]
    rw [chCollapse_cons, chCollapse_cons]
    by_cases h1 : x = [] ∨ x = ['.']
    · rw [if_pos h1, if_pos h1, ih]
    · rw [if_neg h1, if_neg h1]
      by_cases h2 : x = ['.', '.']
      · rw [if_pos h2, if_pos h2]
        cases acc with
        | nil => cases ab <;> simp <;> exact ih _
        | cons t acc2 =>
          by_cases ht : t = ['.', '.']
          · simp only [if_pos ht]
            exact ih _
          · simp only [if_neg ht]
            exact ih _
      · rw [if_neg h2, if_neg h2, ih]

theorem chJoinSegs_append_single :
    ∀ (L : List (List Char)) (s : List Char), L ≠ [] →
      chJoinSegs (L ++ [s]) = chJoinSegs L ++ '/' :: s := by
  intro L
  induction L with
  | nil => intro s h; exact absurd rfl h
  | cons x L ih =>
    intro s _
    cases L with
    | nil => rfl
    | cons y L2 =>
      show chJoinSegs (x :: ((y :: L2) ++ [s])) = _
      rw [show chJoinSegs (x :: ((y :: L2) ++ [s])) =
          x ++ '/' :: chJoinSegs ((y :: L2) ++ [s]) from rfl]
      rw [ih s (by simp)]
      rw [show chJoinSegs (x :: y :: L2) = x ++ '/' :: chJoinSegs (y :: L2) from rfl]
      simp

theorem chJoinSegs_snoc_cases (C : List (List Char)) (s : List Char) :
    chJoinSegs (C ++ [s]) = if C = [] then s else chJoinSegs C ++ '/' :: s := by
  cases hC : C with
  | nil => rfl
  | cons x C2 =>
    rw [if_neg (by simp)]
    exact chJoinSegs_append_single (x :: C2) s (by simp)

theorem chStripTsx_append_ts (u : List Char) :
    chStripTsx (u ++ ('.' :: 't' :: 's' :: [])) = u := by
  unfold chStripTsx
  have h : (u ++ ('.' :: 't' :: 's' :: [])).reverse = 's' :: 't' :: '.' :: u.reverse := by
    simp
  rw [h]
  simp

theorem chStripTsx_append_tsx (u : List Char) :
    chStripTsx (u ++ ('.' :: 't' :: 's' :: 'x' :: [])) = u := by
  unfold chStripTsx
  have h : (u ++ ('.' :: 't' :: 's' :: 'x' :: [])).reverse =
      'x' :: 's' :: 't' :: '.' :: u.reverse := by simp
  rw [h]
  simp

theorem chStripJtsx_append_ts (u : List Char) :
    chStripJtsx (u ++ ('.' :: 't' :: 's' :: [])) = u := by
  unfold chStripJtsx
  have h : (u ++ ('.' :: 't' :: 's' :: [])).reverse = 's' :: 't' :: '.' :: u.reverse := by
    simp
  rw [h]
  simp

theorem chStripJtsx_append_tsx (u : List Char) :
    chStripJtsx (u ++ ('.' :: 't' :: 's' :: 'x' :: [])) = u := by
  unfold chStripJtsx
  have h : (u ++ ('.' :: 't' :: 's' :: 'x' :: [])).reverse =
      'x' :: 's' :: 't' :: '.' :: u.reverse := by simp
  rw [h]
  simp

theorem chStripTsx_eq_self (cs : List Char) (h : noTsExtSeg cs = true) :
    chStripTsx cs = cs := by
  unfold chStripTsx
  split
  · next rest heq =>
    unfold noTsExtSeg at h
    rw [heq] at h
    simp at h
  · next rest heq =>
    unfold noTsExtSeg at h
    rw [heq] at h
    simp at h
  · rfl

theorem chSplit_append_slash : ∀ (xs ys : List Char),
    chSplit (xs ++ '/' :: ys) = chSplit xs ++ chSplit ys := by
  intro xs ys
  induction xs with
  | nil =>
    rw [List.nil_append, chSplit_cons_slash]
    rfl
  | cons c xs ih =>
    rcases h : chSplit xs with _ | ⟨s, ss⟩
    · exact absurd h (chSplit_ne_nil xs)
    · by_cases hc : c = '/'
      · subst hc
        show chSplit ('/' :: (xs ++ '/' :: ys)) = _
        rw [chSplit_cons_slash, ih, chSplit_cons_slash, h]
        rfl
      · have h2 : chSplit (xs ++ '/' :: ys) = s :: (ss ++ chSplit ys) := by
          rw [ih, h]
          rfl
        show chSplit (c :: (xs ++ '/' :: ys)) = _
        rw [chSplit_cons_ne c _ s (ss ++ chSplit ys) hc h2,
          chSplit_cons_ne c xs s ss hc h]
        rfl

theorem ordinarySeg_spec (s : List Char) (h : ordinarySeg s = true) :
    s ≠ [] ∧ s ≠ ['.'] ∧ s ≠ ['.', '.'] := by
  unfold ordinarySeg at h
  simp only [Bool.and_eq_true, decide_eq_true_eq, ne_eq] at h
  exact ⟨h.1.1, h.1.2, h.2⟩

theorem pre_snoc_core (ab : Bool) (C : List (List Char)) (L : List Char) (hL1 : L ≠ []) :
    ((if ab then ['/'] else []) ++
        (if C = [] then L else chJoinSegs C ++ '/' :: L)) =
      ((if ab then ['/'] else []) ++ (if C = [] then [] else chJoinSegs C ++ ['/'])) ++ L ∧
    ((if ab then ['/'] else []) ++
        (if C = [] then L else chJoinSegs C ++ '/' :: L)) ≠ [] := by
  constructor
  · by_cases hC : C = [] <;> cases ab <;> simp [hC]
  · by_cases hC : C = [] <;> cases ab <;> simp [hC, hL1]

theorem joinPaths_eq_pieces (parts : List String) (b0 : String) (B2 : List String)
    (hf : parts.filter (fun p => p ≠ "") = b0 :: B2) :
    joinPaths parts =
      (let cs := chJoinSegs ((b0 :: B2).map String.data)
       let isAbs : Bool := decide (cs.head? = some '/')
       let segs := chCollapse isAbs [] (chSplit cs)
       let r := (if isAbs then ['/'] else []) ++ chJoinSegs segs
       if r = [] then "." else ⟨r⟩) := by
  unfold joinPaths
  rw [hf]

/-- The central decomposition: `joinPaths [pkgDir, dist, .tsc, q]` ends with the
last `/`-segment of `q`, the rest being `joinCore` of its initial segments. -/
theorem joinPaths_last (pkgDir : String) (q : String) (I : List (List Char)) (L : List Char)
    (hq : chSplit q.data = I ++ [L])
    (hL1 : L ≠ []) (hL2 : L ≠ ['.']) (hL3 : L ≠ ['.', '.']) :
    (joinPaths [pkgDir, "dist", ".tsc", q]).data = joinCore pkgDir I ++ L := by
  have hqne : q ≠ "" := by
    intro hc
    subst hc
    rw [show ("" : String).data = [] from rfl,
      show chSplit [] = [[]] from rfl] at hq
    rcases I with _ | ⟨i, I2⟩
    · exact hL1 (by simpa using hq.symm)
    · exact absurd (congrArg List.length hq) (by simp)
  have hfil : [pkgDir, "dist", ".tsc", q].filter (fun p => p ≠ "") =
      ([pkgDir, "dist", ".tsc"].filter (fun p => p ≠ "")) ++ [q] := by
    rw [show [pkgDir, "dist", ".tsc", q] = [pkgDir, "dist", ".tsc"] ++ [q] from rfl,
      List.filter_append]
    simp [hqne]
  have hBne : [pkgDir, "dist", ".tsc"].filter (fun p => p ≠ "") ≠ [] := by
    have hmem : "dist" ∈ [pkgDir, "dist", ".tsc"].filter (fun p => p ≠ "") :=
      List.mem_filter.mpr ⟨by simp, by decide⟩
    intro hc
    rw [hc] at hmem
    exact absurd hmem (List.not_mem_nil _)
  obtain ⟨b0, B2, hB0⟩ := List.exists_cons_of_ne_nil hBne
  have hb0ne : b0.data ≠ [] := by
    intro hc
    have hmem : b0 ∈ [pkgDir, "dist", ".tsc"].filter (fun p => p ≠ "") := by
      rw [hB0]
      exact List.mem_cons_self _ _
    have h2 := (List.mem_filter.mp hmem).2
    simp only [ne_eq, decide_not, Bool.not_eq_true', decide_eq_false_iff_not] at h2
    apply h2
    cases b0
    exact congrArg String.mk hc
  have hf : [pkgDir, "dist", ".tsc", q].filter (fun p => p ≠ "") = b0 :: (B2 ++ [q]) := by
    rw [hfil, hB0]
    rfl
  rw [joinPaths_eq_pieces _ b0 (B2 ++ [q]) hf]
  have hcs : chJoinSegs ((b0 :: (B2 ++ [q])).map String.data) =
      chJoinSegs (((b0 :: B2)).map String.data) ++ '/' :: q.data := by
    rw [show ((b0 :: (B2 ++ [q])) : List String) = (b0 :: B2) ++ [q] from by simp,
      List.map_append]
    rw [show (List.map String.data [q]) = [q.data] from rfl]
    exact chJoinSegs_append_single _ q.data (by simp)
  have huhead : ∃ w, chJoinSegs ((b0 :: B2).map String.data) = b0.data ++ w := by
    cases B2 with
    | nil => exact ⟨[], by rw [List.append_nil]; rfl⟩
    | cons c B3 => exact ⟨'/' :: chJoinSegs ((c :: B3).map String.data), rfl⟩
  obtain ⟨w, hw⟩ := huhead
  have hheads : (chJoinSegs ((b0 :: B2).map String.data) ++ '/' :: q.data).head? =
      (chJoinSegs ((b0 :: B2).map String.data)).head? := by
    rw [hw]
    rcases hd : b0.data with _ | ⟨d, ds⟩
    · exact absurd hd hb0ne
    · rfl
  simp only [hcs, hheads]
  have hsplit2 : chSplit (chJoinSegs ((b0 :: B2).map String.data) ++ '/' :: q.data) =
      (chSplit (chJoinSegs ((b0 :: B2).map String.data)) ++ I) ++ [L] := by
    rw [chSplit_append_slash, hq, List.append_assoc]
  simp only [hsplit2]
  rw [chCollapse_snoc_ordinary _ L hL1 hL2 hL3]
  rw [chJoinSegs_snoc_cases]
  have hpre := pre_snoc_core
    (decide ((chJoinSegs ((b0 :: B2).map String.data)).head? = some '/'))
    (chCollapse (decide ((chJoinSegs ((b0 :: B2).map String.data)).head? = some '/'))
      [] (chSplit (chJoinSegs ((b0 :: B2).map String.data)) ++ I))
    L hL1
  rw [if_neg hpre.2]
  show ((if (decide ((chJoinSegs ((b0 :: B2).map String.data)).head? = some '/'))
      then ['/'] else []) ++ _) = _
  rw [hpre.1]
  congr 1
  unfold joinCore
  rw [hB0]

theorem chStripDotSlash_dotslash (rest : List Char) :
    chStripDotSlash ('.' :: '/' :: rest) = rest := rfl

theorem chStripDotSlash_eq_self (cs : List Char)
    (h : ∀ rest, cs ≠ '.' :: '/' :: rest) : chStripDotSlash cs = cs := by
  unfold chStripDotSlash
  split
  · next rest => exact absurd rfl (h rest)
  · rfl

theorem ordinary_append_sfx (L sfx : List Char)
    (hsfx : sfx = '.' :: 't' :: 's' :: [] ∨ sfx = '.' :: 't' :: 's' :: 'x' :: []) :
    (L ++ sfx) ≠ [] ∧ (L ++ sfx) ≠ ['.'] ∧ (L ++ sfx) ≠ ['.', '.'] := by
  refine ⟨?_, ?_, ?_⟩ <;> intro hc <;> have hlen := congrArg List.length hc <;>
    rcases hsfx with h | h <;> subst h <;> simp at hlen

theorem joinCore_dot (pkgDir : String) (I : List (List Char)) :
    joinCore pkgDir (['.'] :: I) = joinCore pkgDir I := by
  unfold joinCore
  simp only [chCollapse_middle_dot]

theorem pre_core_shape (ab : Bool) (C : List (List Char)) :
    ((if ab then ['/'] else []) ++ (if C = [] then [] else chJoinSegs C ++ ['/'])) = [] ∨
    ∃ w, ((if ab then ['/'] else []) ++
      (if C = [] then [] else chJoinSegs C ++ ['/'])) = w ++ ['/'] := by
  by_cases hC : C = []
  · cases ab
    · left
      simp [hC]
    · right
      exact ⟨[], by simp [hC]⟩
  · cases ab
    · right
      exact ⟨chJoinSegs C, by simp [hC]⟩
    · right
      exact ⟨'/' :: chJoinSegs C, by simp [hC]⟩

theorem joinCore_shape (pkgDir : String) (I : List (List Char)) :
    joinCore pkgDir I = [] ∨ ∃ w, joinCore pkgDir I = w ++ ['/'] := by
  unfold joinCore
  dsimp only
  exact pre_core_shape _ _

theorem tsLikePath_decomp (p : String) (h : tsLikePath p = true) :
    ∃ d c sfx, (d = [] ∨ d = '.' :: '/' :: []) ∧
      (sfx = '.' :: 't' :: 's' :: [] ∨ sfx = '.' :: 't' :: 's' :: 'x' :: []) ∧
      p.data = d ++ (c ++ sfx) ∧ (buildOutputId p).data = c := by
  have hsuf : ∃ u sfx, (sfx = '.' :: 't' :: 's' :: [] ∨ sfx = '.' :: 't' :: 's' :: 'x' :: []) ∧
      p.data = u ++ sfx := by
    unfold tsLikePath at h
    split at h
    · next rest heq =>
      refine ⟨rest.reverse, '.' :: 't' :: 's' :: 'x' :: [], Or.inr rfl, ?_⟩
      have := congrArg List.reverse heq
      simpa using this
    · next rest heq =>
      refine ⟨rest.reverse, '.' :: 't' :: 's' :: [], Or.inl rfl, ?_⟩
      have := congrArg List.reverse heq
      simpa using this
    · exact absurd h (by simp)
  obtain ⟨u, sfx, hsfx, hu⟩ := hsuf
  have hout : (buildOutputId p).data = chStripJtsx (chStripDotSlash p.data) := rfl
  rcases u with _ | ⟨c1, u1⟩
  · refine ⟨[], [], sfx, Or.inl rfl, hsfx, by simpa using hu, ?_⟩
    rw [hout, hu]
    have hid : chStripDotSlash ([] ++ sfx) = [] ++ sfx := by
      apply chStripDotSlash_eq_self
      intro rest hc
      rw [List.nil_append] at hc
      rcases hsfx with h2 | h2 <;> rw [h2] at hc <;>
        simp only [List.cons.injEq] at hc <;>
        exact absurd hc.2.1 (by decide)
    rw [List.nil_append] at hid hu ⊢
    rw [hid]
    rcases hsfx with h2 | h2 <;> subst h2
    · exact chStripJtsx_append_ts []
    · exact chStripJtsx_append_tsx []
  · rcases u1 with _ | ⟨c2, u2⟩
    · refine ⟨[], [c1], sfx, Or.inl rfl, hsfx, by simpa using hu, ?_⟩
      rw [hout, hu]
      have hid : chStripDotSlash ([c1] ++ sfx) = [c1] ++ sfx := by
        apply chStripDotSlash_eq_self
        intro rest hc
        simp only [List.cons_append, List.nil_append] at hc
        rcases hsfx with h2 | h2 <;> rw [h2] at hc <;>
          simp only [List.cons.injEq] at hc <;>
          exact absurd hc.2.1 (by decide)
      rw [hid]
      rcases hsfx with h2 | h2 <;> subst h2
      · exact chStripJtsx_append_ts [c1]
      · exact chStripJtsx_append_tsx [c1]
    · by_cases hdot : c1 = '.' ∧ c2 = '/'
      · obtain ⟨h1, h2⟩ := hdot
        subst h1
        subst h2
        refine ⟨'.' :: '/' :: [], u2, sfx, Or.inr rfl, hsfx, by simpa using hu, ?_⟩
        rw [hout, hu]
        rw [show ('.' :: '/' :: u2) ++ sfx = '.' :: '/' :: (u2 ++ sfx) from rfl,
          chStripDotSlash_dotslash]
        rcases hsfx with h2 | h2 <;> subst h2
        · exact chStripJtsx_append_ts u2
        · exact chStripJtsx_append_tsx u2
      · refine ⟨[], c1 :: c2 :: u2, sfx, Or.inl rfl, hsfx, by simpa using hu, ?_⟩
        rw [hout, hu]
        have hid : chStripDotSlash ((c1 :: c2 :: u2) ++ sfx) = (c1 :: c2 :: u2) ++ sfx := by
          apply chStripDotSlash_eq_self
          intro rest hc
          apply hdot
          simp only [List.cons_append, List.cons.injEq] at hc
          exact ⟨hc.1, hc.2.1⟩
        rw [hid]
        rcases hsfx with h2 | h2 <;> subst h2
        · exact chStripJtsx_append_ts (c1 :: c2 :: u2)
        · exact chStripJtsx_append_tsx (c1 :: c2 :: u2)

theorem buildTscPath_tsLike_canon (pkgDir ext p : String) (h : tsLikePath p = true)
    (I : List (List Char)) (L : List Char)
    (hsp : chSplit (buildOutputId p).data = I ++ [L]) :
    buildTscPath pkgDir p ext = ⟨joinCore pkgDir I ++ L⟩ ++ ext := by
  obtain ⟨d, c, sfx, hd, hsfx, hp, hc⟩ := tsLikePath_decomp p h
  rw [hc] at hsp
  have hnos : '/' ∉ sfx := by
    rcases hsfx with h2 | h2 <;> subst h2 <;> decide
  have hsplit_csfx : chSplit (c ++ sfx) = I ++ [L ++ sfx] :=
    chSplit_append_noslash sfx hnos c I L hsp
  have hord := ordinary_append_sfx L sfx hsfx
  unfold buildTscPath
  rcases hd with hd | hd
  · subst hd
    rw [List.nil_append] at hp
    have hq : chSplit p.data = I ++ [L ++ sfx] := by
      rw [hp]
      exact hsplit_csfx
    rw [joinPaths_last pkgDir p I (L ++ sfx) hq hord.1 hord.2.1 hord.2.2]
    rw [← List.append_assoc]
    rcases hsfx with h2 | h2 <;> subst h2
    · rw [chStripTsx_append_ts]
    · rw [chStripTsx_append_tsx]
  · subst hd
    have hq : chSplit p.data = (['.'] :: I) ++ [L ++ sfx] := by
      rw [hp]
      rw [show ('.' :: '/' :: []) ++ (c ++ sfx) = '.' :: '/' :: (c ++ sfx) from rfl]
      rw [chSplit_dotslash, hsplit_csfx]
      rfl
    rw [joinPaths_last pkgDir p (['.'] :: I) (L ++ sfx) hq hord.1 hord.2.1 hord.2.2]
    rw [joinCore_dot]
    rw [← List.append_assoc]
    rcases hsfx with h2 | h2 <;> subst h2
    · rw [chStripTsx_append_ts]
    · rw [chStripTsx_append_tsx]

theorem buildTscPath_agree (pkgDir ext p1 p2 : String)
    (h1 : tsLikePath p1 = true) (h2 : tsLikePath p2 = true)
    (hout : buildOutputId p1 = buildOutputId p2) :
    buildTscPath pkgDir p1 ext = buildTscPath pkgDir p2 ext := by
  have hne := chSplit_ne_nil (buildOutputId p1).data
  obtain ⟨I, L, hIL⟩ : ∃ I L, chSplit (buildOutputId p1).data = I ++ [L] :=
    ⟨(chSplit (buildOutputId p1).data).dropLast,
      (chSplit (buildOutputId p1).data).getLast hne,
      (List.dropLast_append_getLast hne).symm⟩
  rw [buildTscPath_tsLike_canon pkgDir ext p1 h1 I L hIL,
    buildTscPath_tsLike_canon pkgDir ext p2 h2 I L (by rw [← hout]; exact hIL)]

theorem no_slash_pat4 (L w rest : List Char) (hL : noTsExtSeg L = true)
    (heq : L.reverse ++ '/' :: w = 'x' :: 's' :: 't' :: '.' :: rest) : False := by
  rcases hLr : L.reverse with _ | ⟨a, (_ | ⟨b, (_ | ⟨c, (_ | ⟨d, r4⟩)⟩)⟩)⟩ <;>
    rw [hLr] at heq <;>
    simp only [List.nil_append, List.cons_append, List.cons.injEq] at heq
  · exact absurd heq.1 (by decide)
  · exact absurd heq.2.1 (by decide)
  · exact absurd heq.2.2.1 (by decide)
  · exact absurd heq.2.2.2.1 (by decide)
  · unfold noTsExtSeg at hL
    rw [hLr, heq.1, heq.2.1, heq.2.2.1, heq.2.2.2.1] at hL
    simp at hL

theorem no_slash_pat3 (L w rest : List Char) (hL : noTsExtSeg L = true)
    (heq : L.reverse ++ '/' :: w = 's' :: 't' :: '.' :: rest) : False := by
  rcases hLr : L.reverse with _ | ⟨a, (_ | ⟨b, (_ | ⟨c, r3⟩)⟩)⟩ <;>
    rw [hLr] at heq <;>
    simp only [List.nil_append, List.cons_append, List.cons.injEq] at heq
  · exact absurd heq.1 (by decide)
  · exact absurd heq.2.1 (by decide)
  · exact absurd heq.2.2.1 (by decide)
  · unfold noTsExtSeg at hL
    rw [hLr, heq.1, heq.2.1, heq.2.2.1] at hL
    -- the first match arm still depends on r3: case on r3 to settle the match
    rcases r3 with _ | ⟨e, r5⟩ <;> simp at hL

theorem chStripTsx_sep_append (v L : List Char) (hL : noTsExtSeg L = true)
    (hv : v = [] ∨ ∃ w, v = w ++ ['/']) : chStripTsx (v ++ L) = v ++ L := by
  rcases hv with hv | ⟨w, hv⟩
  · subst hv
    rw [List.nil_append]
    exact chStripTsx_eq_self L hL
  · subst hv
    unfold chStripTsx
    split
    · next rest heq =>
      exfalso
      have heq2 : L.reverse ++ '/' :: w.reverse = 'x' :: 's' :: 't' :: '.' :: rest := by
        rw [← heq]
        simp
      exact no_slash_pat4 L w.reverse rest hL heq2
    · next rest heq =>
      exfalso
      have heq2 : L.reverse ++ '/' :: w.reverse = 's' :: 't' :: '.' :: rest := by
        rw [← heq]
        simp
      exact no_slash_pat3 L w.reverse rest hL heq2
    · rfl

theorem chStripTsx_joinCore (pkgDir : String) (I : List (List Char)) (L : List Char)
    (hL : noTsExtSeg L = true) :
    chStripTsx (joinCore pkgDir I ++ L) = joinCore pkgDir I ++ L :=
  chStripTsx_sep_append (joinCore pkgDir I) L hL (joinCore_shape pkgDir I)

theorem buildTscPath_clean_decomp (pkgDir e ext : String) (h : cleanEntryId e = true) :
    ∃ I L, chSplit e.data = I ++ [L] ∧ noTsExtSeg L = true ∧
      buildTscPath pkgDir e ext = ⟨joinCore pkgDir I ++ L⟩ ++ ext ∧
      buildTscPath pkgDir (e ++ ".ts") ext = ⟨joinCore pkgDir I ++ L⟩ ++ ext := by
  have hne := chSplit_ne_nil e.data
  have hIL : chSplit e.data =
      (chSplit e.data).dropLast ++ [(chSplit e.data).getLast hne] :=
    (List.dropLast_append_getLast hne).symm
  have hLprops : ordinarySeg ((chSplit e.data).getLast hne) = true ∧
      noTsExtSeg ((chSplit e.data).getLast hne) = true := by
    unfold cleanEntryId at h
    rw [List.getLast?_eq_getLast _ hne] at h
    simp only [Bool.and_eq_true] at h
    exact h
  obtain ⟨hordL, hnoTs⟩ := hLprops
  obtain ⟨ho1, ho2, ho3⟩ := ordinarySeg_spec _ hordL
  refine ⟨(chSplit e.data).dropLast, (chSplit e.data).getLast hne, hIL, hnoTs, ?_, ?_⟩
  · unfold buildTscPath
    rw [joinPaths_last pkgDir e _ _ hIL ho1 ho2 ho3]
    rw [chStripTsx_joinCore pkgDir _ _ hnoTs]
  · unfold buildTscPath
    have hq : chSplit (e ++ ".ts").data =
        (chSplit e.data).dropLast ++
          [(chSplit e.data).getLast hne ++ ('.' :: 't' :: 's' :: [])] := by
      rw [strData_append]
      exact chSplit_append_noslash ('.' :: 't' :: 's' :: []) (by decide) e.data _ _ hIL
    have hord := ordinary_append_sfx ((chSplit e.data).getLast hne) _ (Or.inl rfl)
    rw [joinPaths_last pkgDir (e ++ ".ts") _ _ hq hord.1 hord.2.1 hord.2.2]
    rw [← List.append_assoc, chStripTsx_append_ts]

theorem joinCore_head_abs (pkgDir : String) (I : List (List Char))
    (h : pkgDir.data.head? = some '/') : ∃ w, joinCore pkgDir I = '/' :: w := by
  have hpne : pkgDir ≠ "" := by
    intro hc
    rw [hc] at h
    simp at h
  have hB : [pkgDir, "dist", ".tsc"].filter (fun p => p ≠ "") =
      pkgDir :: ["dist", ".tsc"] := by
    rw [show ([pkgDir, "dist", ".tsc"] : List String) =
      pkgDir :: ["dist", ".tsc"] from rfl, List.filter_cons]
    rw [if_pos (by simpa using hpne)]
    congr 1
  unfold joinCore
  dsimp only
  rw [hB]
  have hu : chJoinSegs ((pkgDir :: ["dist", ".tsc"]).map String.data) =
      pkgDir.data ++ '/' :: chJoinSegs (["dist", ".tsc"].map String.data) := rfl
  rw [hu]
  obtain ⟨d, ds, hd⟩ : ∃ d ds, pkgDir.data = d :: ds := by
    rcases hdd : pkgDir.data with _ | ⟨d, ds⟩
    · rw [hdd] at h
      simp at h
    · exact ⟨d, ds, rfl⟩
  have hdc : d = '/' := by
    rw [hd] at h
    simpa using h
  have hhead : (pkgDir.data ++ '/' :: chJoinSegs (["dist", ".tsc"].map String.data)).head? =
      some '/' := by
    rw [hd, hdc]
    rfl
  rw [hhead]
  exact ⟨_, rfl⟩

/-! ## C6: IIFE output naming -/

theorem mem_bundleIifes_iff (a : PkgAnalysis) (pass : IifePass) :
    pass ∈ bundleIifes a ↔
      ∃ entryId paths entryConfig icfg,
        (entryId, paths) ∈ a.relSrcPathMap ∧
        jsLookup a.entryConfigMap entryId = some entryConfig ∧
        entryConfig.iife = some icfg ∧
        ∃ p ∈ paths,
          pass.input = buildTscPath a.pkgDir p ".iife.js" ∧
          pass.output = buildIifeOutputOptions a.pkgDir entryConfig p := by
  constructor
  · intro h
    obtain ⟨pr, hpr, hmem⟩ := List.mem_flatMap.mp h
    rcases hluk : jsLookup a.entryConfigMap pr.1 with _ | entryConfig
    · rw [hluk] at hmem
      exact absurd hmem (List.not_mem_nil _)
    · rw [hluk] at hmem
      dsimp only at hmem
      rcases hiife : entryConfig.iife with _ | icfg
      · rw [hiife] at hmem
        exact absurd hmem (List.not_mem_nil _)
      · rw [hiife] at hmem
        dsimp only at hmem
        obtain ⟨p, hp, heq⟩ := List.mem_map.mp hmem
        refine ⟨pr.1, pr.2, entryConfig, icfg, by simpa using hpr, hluk, hiife,
          p, hp, ?_, ?_⟩
        · rw [← heq]
        · rw [← heq]
  · rintro ⟨entryId, paths, entryConfig, icfg, hmem, hluk, hiife, p, hp, hinp, hout⟩
    refine List.mem_flatMap.mpr ⟨(entryId, paths), hmem, ?_⟩
    rw [show jsLookup a.entryConfigMap (entryId, paths).1 = some entryConfig from hluk]
    dsimp only
    rw [hiife]
    refine List.mem_map.mpr ⟨p, hp, ?_⟩
    cases pass
    simp only [IifePass.mk.injEq]
    exact ⟨hinp.symm, hout.symm⟩

/-- C6: the IIFE pipeline runs one independent bundler pass per (entry, resolved
source path) pair whose entry declares an `iife` sub-configuration, and the pass
output file is `pkgDir/dist/<buildOutputId(relSrcPath)>.js` — derived from the
source path's output identifier, not the entry identifier, so two source paths
that coincide after the renaming rule produce the same output filename. -/
theorem bundleIifes_output_naming (a : PkgAnalysis) :
    (∀ pass : IifePass, pass ∈ bundleIifes a ↔
      ∃ entryId paths entryConfig icfg,
        (entryId, paths) ∈ a.relSrcPathMap ∧
        jsLookup a.entryConfigMap entryId = some entryConfig ∧
        entryConfig.iife = some icfg ∧
        ∃ p ∈ paths,
          pass.input = buildTscPath a.pkgDir p ".iife.js" ∧
          pass.output = buildIifeOutputOptions a.pkgDir entryConfig p ∧
          pass.output.file = joinPaths [a.pkgDir, "dist", buildOutputId p] ++ ".js") ∧
    (∀ (cfg1 cfg2 : EntryConfig) (p1 p2 : String),
      buildOutputId p1 = buildOutputId p2 →
      (buildIifeOutputOptions a.pkgDir cfg1 p1).file =
        (buildIifeOutputOptions a.pkgDir cfg2 p2).file) := by
  constructor
  · intro pass
    rw [mem_bundleIifes_iff]
    constructor
    · rintro ⟨entryId, paths, entryConfig, icfg, hmem, hluk, hiife, p, hp, hinp, hout⟩
      exact ⟨entryId, paths, entryConfig, icfg, hmem, hluk, hiife, p, hp, hinp, hout,
        by rw [hout]; rfl⟩
    · rintro ⟨entryId, paths, entryConfig, icfg, hmem, hluk, hiife, p, hp, hinp, hout, _⟩
      exact ⟨entryId, paths, entryConfig, icfg, hmem, hluk, hiife, p, hp, hinp, hout⟩
  · intro cfg1 cfg2 p1 p2 hout
    unfold buildIifeOutputOptions
    simp only
    rw [hout]

/-- C6 witness: two source paths with the same output identifier collide on the
same IIFE output file, at a concrete analysis. -/
theorem bundleIifes_output_naming_witness :
    (buildIifeOutputOptions "/pkg" {} "./main.ts").file =
      (buildIifeOutputOptions "/pkg" { iife := some { name := some "FC" } } "main.tsx").file :=
  (bundleIifes_output_naming
      { pkgDir := "/pkg", pkgMeta := {}, entryConfigMap := [], relSrcPathMap := []
        entryContentMap := [], iifeEntryContentMap := [] }).2
    {} { iife := some { name := some "FC" } } "./main.ts" "main.tsx" (by decide)

/-! ## C7: externalize-exports rewriting -/

theorem mem_keys_exportTscPathMap (pkgDir : String)
    (relSrcPathMap : List (String × List String)) (x : String) :
    x ∈ jsKeys (exportTscPathMap pkgDir relSrcPathMap) ↔
      ∃ pr ∈ relSrcPathMap, ∃ q ∈ pr.2, buildTscPath pkgDir q ".js" = x := by
  unfold exportTscPathMap
  rw [foldInsert_eq_jsAssign, mem_keys_jsAssign]
  simp only [jsKeys, List.map_nil, List.not_mem_nil, false_or, List.map_flatMap]
  rw [List.mem_flatMap]
  constructor
  · rintro ⟨pr, hpr, hx⟩
    simp only [List.map_map, List.mem_map] at hx
    obtain ⟨q, hq, hqx⟩ := hx
    exact ⟨pr, hpr, q, hq, hqx⟩
  · rintro ⟨pr, hpr, q, hq, hqx⟩
    refine ⟨pr, hpr, ?_⟩
    simp only [List.map_map, List.mem_map]
    exact ⟨q, hq, hqx⟩

/-- C7: in the types pass, the externalize-exports plugin rewrites an import
specifier whose computed import path is one of the package's own compiled
entry-point paths (the `.js` tsc path of a resolved source path) to the same
specifier with a trailing `.js` replaced by `.mjs`, marked external; every
other specifier is deferred. -/
theorem externalizeExports_rewrites_iff (cwd pkgDir : String)
    (relSrcPathMap : List (String × List String)) (id : String)
    (importer : Option String) :
    (externalizeExportsResolveId cwd pkgDir relSrcPathMap id importer =
        some { id := jsToMjs id, external := true } ↔
      ∃ p, computeImportPath cwd id importer = some p ∧
        ∃ pr ∈ relSrcPathMap, ∃ q ∈ pr.2, buildTscPath pkgDir q ".js" = p) ∧
    (∀ r, externalizeExportsResolveId cwd pkgDir relSrcPathMap id importer = some r →
      r = { id := jsToMjs id, external := true }) := by
  unfold externalizeExportsResolveId
  rcases hcip : computeImportPath cwd id importer with _ | p
  · constructor
    · simp
    · intro r hr
      exact absurd hr (by simp)
  · dsimp only
    have hmem := mem_keys_exportTscPathMap pkgDir relSrcPathMap p
    rw [mem_keys_iff_lookup_isSome] at hmem
    by_cases hs : (jsLookup (exportTscPathMap pkgDir relSrcPathMap) p).isSome
    · rw [if_pos hs]
      constructor
      · constructor
        · intro _
          exact ⟨p, rfl, hmem.mp hs⟩
        · intro _
          rfl
      · intro r hr
        exact (Option.some.inj hr).symm
    · rw [if_neg hs]
      constructor
      · constructor
        · intro hc
          exact absurd hc (by simp)
        · rintro ⟨p2, hp2, hrest⟩
          rw [← Option.some.inj hp2] at hrest
          exact absurd (hmem.mpr hrest) hs
      · intro r hr
        exact absurd hr (by simp)

/-- C7 witness: a specifier equal to a compiled entry-point path is rewritten
`.js` to `.mjs` and externalized. -/
theorem externalizeExports_rewrites_iff_witness :
    externalizeExportsResolveId "/cwd" "/pkg" [(".", ["index.ts"])]
        "/pkg/dist/.tsc/index.js" none =
      some { id := jsToMjs "/pkg/dist/.tsc/index.js", external := true } :=
  (externalizeExports_rewrites_iff "/cwd" "/pkg" [(".", ["index.ts"])]
      "/pkg/dist/.tsc/index.js" none).1.mpr
    ⟨"/pkg/dist/.tsc/index.js", by decide, (".", ["index.ts"]), by decide,
      "index.ts", by decide, by decide⟩

/-! ## Entry-task characterisation: `processEntry` computes `entryData` -/

theorem exceptBind_ok {e a b : Type} (x : a) (f : a → Except e b) :
    (Except.ok x >>= f : Except e b) = f x := rfl

theorem exceptBind_error {e a b : Type} (msg : e) (f : a → Except e b) :
    ((Except.error msg : Except e a) >>= f) = Except.error msg := rfl

theorem exceptMap_ok {e a b : Type} (f : a → b) (x : a) :
    ((Except.ok x : Except e a).map f) = Except.ok (f x) := rfl

theorem exceptMap_error {e a b : Type} (f : a → b) (msg : e) :
    ((Except.error msg : Except e a).map f) = (Except.error msg : Except e b) := rfl

theorem foldlM_cons_ok {s t : Type} (step : s → t → Except String s)
    (e : t) (order : List t) (acc res : s)
    (h : (e :: order).foldlM step acc = .ok res) :
    ∃ acc1, step acc e = .ok acc1 ∧ order.foldlM step acc1 = .ok res := by
  rw [List.foldlM_cons] at h
  cases hs : step acc e with
  | error msg =>
    rw [hs, exceptBind_error] at h
    exact Except.noConfusion h
  | ok acc1 =>
    rw [hs, exceptBind_ok] at h
    exact ⟨acc1, rfl, h⟩

theorem iife_fold_shift (g : String → Except String (List (String × String))) :
    ∀ (ps : List String) (m0 : List (String × String)),
      ps.foldlM (fun m p => (g p).map (fun cm => m ++ cm)) m0 =
        (ps.foldlM (fun m p => (g p).map (fun cm => m ++ cm)) []).map
          (fun l => m0 ++ l) := by
  intro ps
  induction ps with
  | nil =>
    intro m0
    show Except.ok m0 = (Except.ok [] : Except String (List (String × String))).map
      (fun l => m0 ++ l)
    rw [exceptMap_ok, List.append_nil]
  | cons p ps ih =>
    intro m0
    rw [List.foldlM_cons, List.foldlM_cons]
    cases hg : g p with
    | error msg =>
      simp only [hg, exceptMap_error, exceptBind_error]
    | ok cm =>
      simp only [hg, exceptMap_ok, exceptBind_ok, List.nil_append]
      rw [ih (m0 ++ cm), ih cm]
      cases hrest : ps.foldlM (fun m p => (g p).map (fun cm => m ++ cm)) [] with
      | error msg => rw [exceptMap_error, exceptMap_error, exceptMap_error]
      | ok l =>
        rw [exceptMap_ok, exceptMap_ok, exceptMap_ok, List.append_assoc]

theorem processEntryIife_cons (pkgDir : String) (env : PkgEnv) (iifeGen : String)
    (p : String) (ps : List String) (acc : AnalysisAcc) :
    processEntryIife pkgDir env iifeGen (p :: ps) acc =
      ((generateEntryContent (removeFirstTsx p)
          (env.genModules (joinPaths [pkgDir, iifeGen]))).map
        (fun cm =>
          { acc with iifeEntryContentMap := jsAssign acc.iifeEntryContentMap cm })) >>=
        (fun a1 => processEntryIife pkgDir env iifeGen ps a1) := by
  rw [processEntryIife, List.foldlM_cons]
  rfl

theorem processEntryIife_spec (pkgDir : String) (env : PkgEnv) (iifeGen : String) :
    ∀ (relSrcPaths : List String) (acc : AnalysisAcc),
      processEntryIife pkgDir env iifeGen relSrcPaths acc =
        (relSrcPaths.foldlM
            (fun m p =>
              (generateEntryContent (removeFirstTsx p)
                  (env.genModules (joinPaths [pkgDir, iifeGen]))).map
                (fun cm => m ++ cm)) []).map
          (fun icm =>
            { acc with iifeEntryContentMap := jsAssign acc.iifeEntryContentMap icm }) := by
  intro ps
  induction ps with
  | nil =>
    intro acc
    rfl
  | cons p ps ih =>
    intro acc
    rw [processEntryIife_cons, List.foldlM_cons]
    cases hg : generateEntryContent (removeFirstTsx p)
        (env.genModules (joinPaths [pkgDir, iifeGen])) with
    | error msg =>
      simp only [hg, exceptMap_error, exceptBind_error]
    | ok cm =>
      simp only [hg, exceptMap_ok, exceptBind_ok, List.nil_append]
      rw [ih, iife_fold_shift _ ps cm]
      cases hrest : ps.foldlM
          (fun m p =>
            (generateEntryContent (removeFirstTsx p)
                (env.genModules (joinPaths [pkgDir, iifeGen]))).map
              (fun cm => m ++ cm)) [] with
      | error msg => rw [exceptMap_error, exceptMap_error, exceptMap_error]
      | ok l =>
        rw [exceptMap_ok, exceptMap_ok, exceptMap_ok, jsAssign_append]

theorem processEntry_spec (pkgDir : String) (env : PkgEnv) (entryId : String)
    (cfg : EntryConfig) (acc : AnalysisAcc) :
    processEntry pkgDir env entryId cfg acc =
      (entryData pkgDir env entryId cfg).map
        (fun t =>
          { relSrcPathMap := jsInsert acc.relSrcPathMap entryId t.2.1
            entryContentMap := jsAssign acc.entryContentMap t.1
            iifeEntryContentMap := jsAssign acc.iifeEntryContentMap t.2.2 }) := by
  unfold processEntry entryData entryContentE entryPathsOf entryIifeContentE
  cases hgen : cfg.generator with
  | none =>
    dsimp only
    rw [pure_bind]
    dsimp only
    cases hiife : cfg.iife.bind (fun i => i.generator) with
    | none => rfl
    | some ig =>
      dsimp only
      rw [processEntryIife_spec]
      cases hrest : (env.srcQuery pkgDir entryId).foldlM
          (fun m p =>
            (generateEntryContent (removeFirstTsx p)
                (env.genModules (joinPaths [pkgDir, ig]))).map
              (fun cm => m ++ cm)) [] with
      | error msg => rfl
      | ok l => rfl
  | some gen =>
    dsimp only
    cases hcm : generateEntryContent entryId (env.genModules (joinPaths [pkgDir, gen])) with
    | error msg =>
      rw [exceptBind_error, exceptBind_error, exceptMap_error]
    | ok cm =>
      rw [exceptBind_ok, exceptBind_ok, pure_bind]
      dsimp only
      cases hiife : cfg.iife.bind (fun i => i.generator) with
      | none => rfl
      | some ig =>
        dsimp only
        rw [processEntryIife_spec]
        cases hrest : (cm.map (fun kv => kv.1 ++ ".ts")).foldlM
            (fun m p =>
              (generateEntryContent (removeFirstTsx p)
                  (env.genModules (joinPaths [pkgDir, ig]))).map
                (fun cm => m ++ cm)) [] with
        | error msg => rfl
        | ok l => rfl

theorem analyzeEntryStep_none (pkgDir : String) (env : PkgEnv)
    (cfgMap : List (String × EntryConfig)) (acc : AnalysisAcc) (e : String)
    (h : jsLookup cfgMap e = none) :
    analyzeEntryStep pkgDir env cfgMap acc e = .ok acc := by
  unfold analyzeEntryStep
  rw [h]
  rfl

theorem analyzeEntryStep_some (pkgDir : String) (env : PkgEnv)
    (cfgMap : List (String × EntryConfig)) (acc : AnalysisAcc) (e : String)
    (cfg : EntryConfig) (h : jsLookup cfgMap e = some cfg) :
    analyzeEntryStep pkgDir env cfgMap acc e = processEntry pkgDir env e cfg acc := by
  unfold analyzeEntryStep
  rw [h]

theorem entryDataOf_none (pkgDir : String) (env : PkgEnv)
    (cfgMap : List (String × EntryConfig)) (e : String)
    (h : jsLookup cfgMap e = none) : entryDataOf pkgDir env cfgMap e = none := by
  unfold entryDataOf
  rw [h]
  rfl

theorem entryDataOf_eq (pkgDir : String) (env : PkgEnv)
    (cfgMap : List (String × EntryConfig)) (e : String) (cfg : EntryConfig)
    (t : List (String × String) × List String × List (String × String))
    (hcfg : jsLookup cfgMap e = some cfg) (ht : entryData pkgDir env e cfg = .ok t) :
    entryDataOf pkgDir env cfgMap e = some t := by
  unfold entryDataOf
  rw [hcfg]
  show (entryData pkgDir env e cfg).toOption = some t
  rw [ht]
  rfl

theorem analyzeEntryStep_ok_cases (pkgDir : String) (env : PkgEnv)
    (cfgMap : List (String × EntryConfig)) (acc acc1 : AnalysisAcc) (e : String)
    (h : analyzeEntryStep pkgDir env cfgMap acc e = .ok acc1) :
    (jsLookup cfgMap e = none ∧ acc1 = acc) ∨
    (∃ cfg t, jsLookup cfgMap e = some cfg ∧ entryData pkgDir env e cfg = .ok t ∧
      acc1 = { relSrcPathMap := jsInsert acc.relSrcPathMap e t.2.1
               entryContentMap := jsAssign acc.entryContentMap t.1
               iifeEntryContentMap := jsAssign acc.iifeEntryContentMap t.2.2 }) := by
  cases hcfg : jsLookup cfgMap e with
  | none =>
    left
    refine ⟨rfl, ?_⟩
    rw [analyzeEntryStep_none pkgDir env cfgMap acc e hcfg] at h
    exact (Except.ok.inj h).symm
  | some cfg =>
    right
    rw [analyzeEntryStep_some pkgDir env cfgMap acc e cfg hcfg, processEntry_spec] at h
    cases ht : entryData pkgDir env e cfg with
    | error msg =>
      rw [ht, exceptMap_error] at h
      exact Except.noConfusion h
    | ok t =>
      rw [ht, exceptMap_ok] at h
      exact ⟨cfg, t, rfl, ht, (Except.ok.inj h).symm⟩

theorem mem_jsAssign {α : Type} (src : List (String × α)) :
    ∀ (m : List (String × α)) (q : String × α), q ∈ jsAssign m src → q ∈ m ∨ q ∈ src := by
  induction src with
  | nil => intro m q h; exact Or.inl h
  | cons kv rest ih =>
    intro m q h
    have h1 : q ∈ jsAssign (jsInsert m kv.1 kv.2) rest := h
    rcases ih _ q h1 with h2 | h2
    · rcases mem_jsInsert m kv.1 kv.2 q h2 with h3 | h3
      · right
        rw [h3]
        exact List.mem_cons_self _ _
      · exact Or.inl h3
    · right
      exact List.mem_cons_of_mem _ h2

theorem foldEntries_ok_data (pkgDir : String) (env : PkgEnv)
    (cfgMap : List (String × EntryConfig)) :
    ∀ (order : List String) (acc res : AnalysisAcc),
      order.foldlM (analyzeEntryStep pkgDir env cfgMap) acc = .ok res →
      ∀ e ∈ order, ∀ cfg, jsLookup cfgMap e = some cfg →
        ∃ t, entryData pkgDir env e cfg = .ok t := by
  intro order
  induction order with
  | nil =>
    intro acc res _ e he
    exact absurd he (List.not_mem_nil e)
  | cons a l ih =>
    intro acc res h e he cfg hcfg
    obtain ⟨acc1, h1, h2⟩ := foldlM_cons_ok _ _ _ _ _ h
    rcases List.mem_cons.mp he with heq | hmem
    · subst heq
      rcases analyzeEntryStep_ok_cases _ _ _ _ _ _ h1 with ⟨hn, _⟩ | ⟨cfg2, t, hc2, ht, _⟩
      · rw [hn] at hcfg
        exact Option.noConfusion hcfg
      · rw [hc2] at hcfg
        refine ⟨t, ?_⟩
        rw [← Option.some.inj hcfg]
        exact ht
    · exact ih acc1 res h2 e hmem cfg hcfg

theorem foldEntries_ok_of (pkgDir : String) (env : PkgEnv)
    (cfgMap : List (String × EntryConfig)) :
    ∀ (order : List String) (acc : AnalysisAcc),
      (∀ e ∈ order, ∀ cfg, jsLookup cfgMap e = some cfg →
        ∃ t, entryData pkgDir env e cfg = .ok t) →
      ∃ res, order.foldlM (analyzeEntryStep pkgDir env cfgMap) acc = .ok res := by
  intro order
  induction order with
  | nil =>
    intro acc _
    exact ⟨acc, rfl⟩
  | cons a l ih =>
    intro acc hall
    have hstep : ∃ acc1, analyzeEntryStep pkgDir env cfgMap acc a = .ok acc1 := by
      cases hcfg : jsLookup cfgMap a with
      | none => exact ⟨acc, analyzeEntryStep_none pkgDir env cfgMap acc a hcfg⟩
      | some cfg =>
        obtain ⟨t, ht⟩ := hall a (List.mem_cons_self a l) cfg hcfg
        refine ⟨{ relSrcPathMap := jsInsert acc.relSrcPathMap a t.2.1
                  entryContentMap := jsAssign acc.entryContentMap t.1
                  iifeEntryContentMap := jsAssign acc.iifeEntryContentMap t.2.2 }, ?_⟩
        rw [analyzeEntryStep_some pkgDir env cfgMap acc a cfg hcfg, processEntry_spec, ht,
          exceptMap_ok]
    obtain ⟨acc1, h1⟩ := hstep
    obtain ⟨res, h2⟩ := ih acc1 (fun e he cfg hc => hall e (List.mem_cons_of_mem a he) cfg hc)
    refine ⟨res, ?_⟩
    rw [List.foldlM_cons, h1, exceptBind_ok]
    exact h2

theorem foldEntries_rsp (pkgDir : String) (env : PkgEnv)
    (cfgMap : List (String × EntryConfig)) :
    ∀ (order : List String) (acc res : AnalysisAcc),
      order.foldlM (analyzeEntryStep pkgDir env cfgMap) acc = .ok res →
      ∀ e, jsLookup res.relSrcPathMap e =
        if e ∈ order ∧ (jsLookup cfgMap e).isSome then
          (entryDataOf pkgDir env cfgMap e).map (fun t => t.2.1)
        else jsLookup acc.relSrcPathMap e := by
  intro order
  induction order with
  | nil =>
    intro acc res h e
    have hra : acc = res := Except.ok.inj h
    rw [← hra, if_neg]
    intro hc
    exact absurd hc.1 (List.not_mem_nil e)
  | cons a l ih =>
    intro acc res h e
    obtain ⟨acc1, h1, h2⟩ := foldlM_cons_ok _ _ _ _ _ h
    have ihr := ih acc1 res h2 e
    by_cases hl : e ∈ l ∧ (jsLookup cfgMap e).isSome
    · rw [if_pos hl] at ihr
      rw [ihr, if_pos ⟨List.mem_cons_of_mem a hl.1, hl.2⟩]
    · rw [if_neg hl] at ihr
      rcases analyzeEntryStep_ok_cases _ _ _ _ _ _ h1 with ⟨hn, hacc⟩ | ⟨cfg, t, hc, ht, hacc⟩
      · subst hacc
        by_cases hea : e = a
        · subst hea
          rw [ihr, if_neg]
          intro hcond
          have hs := hcond.2
          rw [hn] at hs
          exact absurd hs (by decide)
        · rw [ihr, if_neg]
          intro hcond
          exact hl ⟨(List.mem_cons.mp hcond.1).resolve_left hea, hcond.2⟩
      · subst hacc
        by_cases hea : e = a
        · subst hea
          rw [ihr]
          dsimp only
          rw [jsLookup_jsInsert, if_pos rfl,
            if_pos ⟨List.mem_cons_self e l, by rw [hc]; rfl⟩,
            entryDataOf_eq pkgDir env cfgMap e cfg t hc ht]
          rfl
        · rw [ihr]
          dsimp only
          rw [jsLookup_jsInsert, if_neg hea, if_neg]
          intro hcond
          exact hl ⟨(List.mem_cons.mp hcond.1).resolve_left hea, hcond.2⟩

theorem foldEntries_ecm_keys (pkgDir : String) (env : PkgEnv)
    (cfgMap : List (String × EntryConfig)) :
    ∀ (order : List String) (acc res : AnalysisAcc),
      order.foldlM (analyzeEntryStep pkgDir env cfgMap) acc = .ok res →
      ∀ k, (k ∈ jsKeys res.entryContentMap ↔
        (k ∈ jsKeys acc.entryContentMap ∨
          ∃ e ∈ order, ∃ t, entryDataOf pkgDir env cfgMap e = some t ∧
            k ∈ jsKeys t.1)) := by
  intro order
  induction order with
  | nil =>
    intro acc res h k
    have hra : acc = res := Except.ok.inj h
    subst hra
    simp
  | cons a l ih =>
    intro acc res h k
    obtain ⟨acc1, h1, h2⟩ := foldlM_cons_ok _ _ _ _ _ h
    rw [ih acc1 res h2 k]
    rcases analyzeEntryStep_ok_cases _ _ _ _ _ _ h1 with ⟨hn, hacc⟩ | ⟨cfg, t, hc, ht, hacc⟩
    · subst hacc
      constructor
      · rintro (hk | ⟨e, he, t, hdo, hkt⟩)
        · exact Or.inl hk
        · exact Or.inr ⟨e, List.mem_cons_of_mem a he, t, hdo, hkt⟩
      · rintro (hk | ⟨e, he, t, hdo, hkt⟩)
        · exact Or.inl hk
        · rcases List.mem_cons.mp he with heq | hmem
          · subst heq
            rw [entryDataOf_none pkgDir env cfgMap e hn] at hdo
            exact Option.noConfusion hdo
          · exact Or.inr ⟨e, hmem, t, hdo, hkt⟩
    · subst hacc
      dsimp only
      rw [mem_keys_jsAssign]
      have hdo := entryDataOf_eq pkgDir env cfgMap a cfg t hc ht
      constructor
      · rintro ((hk | hkt) | ⟨e, he, t2, hdo2, hkt⟩)
        · exact Or.inl hk
        · exact Or.inr ⟨a, List.mem_cons_self a l, t, hdo, hkt⟩
        · exact Or.inr ⟨e, List.mem_cons_of_mem a he, t2, hdo2, hkt⟩
      · rintro (hk | ⟨e, he, t2, hdo2, hkt⟩)
        · exact Or.inl (Or.inl hk)
        · rcases List.mem_cons.mp he with heq | hmem
          · subst heq
            rw [hdo] at hdo2
            rw [← Option.some.inj hdo2] at hkt
            exact Or.inl (Or.inr hkt)
          · exact Or.inr ⟨e, hmem, t2, hdo2, hkt⟩

theorem foldEntries_iecm_keys (pkgDir : String) (env : PkgEnv)
    (cfgMap : List (String × EntryConfig)) :
    ∀ (order : List String) (acc res : AnalysisAcc),
      order.foldlM (analyzeEntryStep pkgDir env cfgMap) acc = .ok res →
      ∀ k, (k ∈ jsKeys res.iifeEntryContentMap ↔
        (k ∈ jsKeys acc.iifeEntryContentMap ∨
          ∃ e ∈ order, ∃ t, entryDataOf pkgDir env cfgMap e = some t ∧
            k ∈ jsKeys t.2.2)) := by
  intro order
  induction order with
  | nil =>
    intro acc res h k
    have hra : acc = res := Except.ok.inj h
    subst hra
    simp
  | cons a l ih =>
    intro acc res h k
    obtain ⟨acc1, h1, h2⟩ := foldlM_cons_ok _ _ _ _ _ h
    rw [ih acc1 res h2 k]
    rcases analyzeEntryStep_ok_cases _ _ _ _ _ _ h1 with ⟨hn, hacc⟩ | ⟨cfg, t, hc, ht, hacc⟩
    · subst hacc
      constructor
      · rintro (hk | ⟨e, he, t, hdo, hkt⟩)
        · exact Or.inl hk
        · exact Or.inr ⟨e, List.mem_cons_of_mem a he, t, hdo, hkt⟩
      · rintro (hk | ⟨e, he, t, hdo, hkt⟩)
        · exact Or.inl hk
        · rcases List.mem_cons.mp he with heq | hmem
          · subst heq
            rw [entryDataOf_none pkgDir env cfgMap e hn] at hdo
            exact Option.noConfusion hdo
          · exact Or.inr ⟨e, hmem, t, hdo, hkt⟩
    · subst hacc
      dsimp only
      rw [mem_keys_jsAssign]
      have hdo := entryDataOf_eq pkgDir env cfgMap a cfg t hc ht
      constructor
      · rintro ((hk | hkt) | ⟨e, he, t2, hdo2, hkt⟩)
        · exact Or.inl hk
        · exact Or.inr ⟨a, List.mem_cons_self a l, t, hdo, hkt⟩
        · exact Or.inr ⟨e, List.mem_cons_of_mem a he, t2, hdo2, hkt⟩
      · rintro (hk | ⟨e, he, t2, hdo2, hkt⟩)
        · exact Or.inl (Or.inl hk)
        · rcases List.mem_cons.mp he with heq | hmem
          · subst heq
            rw [hdo] at hdo2
            rw [← Option.some.inj hdo2] at hkt
            exact Or.inl (Or.inr hkt)
          · exact Or.inr ⟨e, hmem, t2, hdo2, hkt⟩

theorem analyzePkgOrdered_ok_elim (pkgDir : String) (pkgMeta : SrcPkgMeta)
    (env : PkgEnv) (order : List String) (a : PkgAnalysis)
    (h : analyzePkgOrdered pkgDir pkgMeta env order = .ok a) :
    ∃ acc, order.foldlM (analyzeEntryStep pkgDir env (entryConfigMapOf pkgMeta))
        (⟨[], [], []⟩ : AnalysisAcc) = .ok acc ∧
      a = { pkgDir := pkgDir, pkgMeta := pkgMeta
            entryConfigMap := entryConfigMapOf pkgMeta
            relSrcPathMap := acc.relSrcPathMap
            entryContentMap := acc.entryContentMap
            iifeEntryContentMap := acc.iifeEntryContentMap } := by
  unfold analyzePkgOrdered at h
  dsimp only at h
  cases hf : order.foldlM (analyzeEntryStep pkgDir env (entryConfigMapOf pkgMeta))
      (⟨[], [], []⟩ : AnalysisAcc) with
  | error msg =>
    rw [hf, exceptMap_error] at h
    exact Except.noConfusion h
  | ok acc =>
    rw [hf, exceptMap_ok] at h
    exact ⟨acc, rfl, (Except.ok.inj h).symm⟩

theorem analyzePkgOrdered_ok_intro (pkgDir : String) (pkgMeta : SrcPkgMeta)
    (env : PkgEnv) (order : List String) (acc : AnalysisAcc)
    (h : order.foldlM (analyzeEntryStep pkgDir env (entryConfigMapOf pkgMeta))
        (⟨[], [], []⟩ : AnalysisAcc) = .ok acc) :
    analyzePkgOrdered pkgDir pkgMeta env order =
      .ok { pkgDir := pkgDir, pkgMeta := pkgMeta
            entryConfigMap := entryConfigMapOf pkgMeta
            relSrcPathMap := acc.relSrcPathMap
            entryContentMap := acc.entryContentMap
            iifeEntryContentMap := acc.iifeEntryContentMap } := by
  unfold analyzePkgOrdered
  dsimp only
  rw [h, exceptMap_ok]

/-- C9: `analyzePkg` is deterministic over its inputs: whatever completion
order the concurrent per-entry tasks take (any two permuted orders), the
analysis succeeds or fails identically, and two successful runs agree on the
resolved source-path list of every entry id, on the set of entry ids, and on
the key sets of both generated-content maps. -/
theorem analyzePkg_order_insensitive (pkgDir : String) (pkgMeta : SrcPkgMeta)
    (env : PkgEnv) (o1 o2 : List String) (hperm : o1.Perm o2) :
    ((∃ a, analyzePkgOrdered pkgDir pkgMeta env o1 = .ok a) ↔
      (∃ a, analyzePkgOrdered pkgDir pkgMeta env o2 = .ok a)) ∧
    (∀ a1 a2, analyzePkgOrdered pkgDir pkgMeta env o1 = .ok a1 →
      analyzePkgOrdered pkgDir pkgMeta env o2 = .ok a2 →
      (∀ e, jsLookup a1.relSrcPathMap e = jsLookup a2.relSrcPathMap e) ∧
      (∀ e, e ∈ jsKeys a1.relSrcPathMap ↔ e ∈ jsKeys a2.relSrcPathMap) ∧
      (∀ k, k ∈ jsKeys a1.entryContentMap ↔ k ∈ jsKeys a2.entryContentMap) ∧
      (∀ k, k ∈ jsKeys a1.iifeEntryContentMap ↔ k ∈ jsKeys a2.iifeEntryContentMap)) := by
  constructor
  · constructor
    · rintro ⟨a, ha⟩
      obtain ⟨acc, hf, -⟩ := analyzePkgOrdered_ok_elim pkgDir pkgMeta env o1 a ha
      obtain ⟨res, hres⟩ := foldEntries_ok_of pkgDir env (entryConfigMapOf pkgMeta) o2
        (⟨[], [], []⟩ : AnalysisAcc)
        (fun e he cfg hcf =>
          foldEntries_ok_data pkgDir env (entryConfigMapOf pkgMeta) o1 _ _ hf e
            (hperm.mem_iff.mpr he) cfg hcf)
      exact ⟨_, analyzePkgOrdered_ok_intro pkgDir pkgMeta env o2 res hres⟩
    · rintro ⟨a, ha⟩
      obtain ⟨acc, hf, -⟩ := analyzePkgOrdered_ok_elim pkgDir pkgMeta env o2 a ha
      obtain ⟨res, hres⟩ := foldEntries_ok_of pkgDir env (entryConfigMapOf pkgMeta) o1
        (⟨[], [], []⟩ : AnalysisAcc)
        (fun e he cfg hcf =>
          foldEntries_ok_data pkgDir env (entryConfigMapOf pkgMeta) o2 _ _ hf e
            (hperm.mem_iff.mp he) cfg hcf)
      exact ⟨_, analyzePkgOrdered_ok_intro pkgDir pkgMeta env o1 res hres⟩
  · intro a1 a2 h1 h2
    obtain ⟨acc1, hf1, ha1⟩ := analyzePkgOrdered_ok_elim pkgDir pkgMeta env o1 a1 h1
    obtain ⟨acc2, hf2, ha2⟩ := analyzePkgOrdered_ok_elim pkgDir pkgMeta env o2 a2 h2
    subst ha1
    subst ha2
    dsimp only
    have hlook : ∀ e, jsLookup acc1.relSrcPathMap e = jsLookup acc2.relSrcPathMap e := by
      intro e
      rw [foldEntries_rsp pkgDir env (entryConfigMapOf pkgMeta) o1 _ _ hf1 e,
        foldEntries_rsp pkgDir env (entryConfigMapOf pkgMeta) o2 _ _ hf2 e]
      by_cases hcnd : e ∈ o1 ∧ (jsLookup (entryConfigMapOf pkgMeta) e).isSome
      · rw [if_pos hcnd, if_pos ⟨hperm.mem_iff.mp hcnd.1, hcnd.2⟩]
      · rw [if_neg hcnd, if_neg (fun hc2 => hcnd ⟨hperm.mem_iff.mpr hc2.1, hc2.2⟩)]
    refine ⟨hlook, ?_, ?_, ?_⟩
    · intro e
      rw [mem_keys_iff_lookup_isSome, mem_keys_iff_lookup_isSome, hlook e]
    · intro k
      rw [foldEntries_ecm_keys pkgDir env (entryConfigMapOf pkgMeta) o1 _ _ hf1 k,
        foldEntries_ecm_keys pkgDir env (entryConfigMapOf pkgMeta) o2 _ _ hf2 k]
      constructor
      · rintro (hk | ⟨e, he, t, hdo, hkt⟩)
        · exact Or.inl hk
        · exact Or.inr ⟨e, hperm.mem_iff.mp he, t, hdo, hkt⟩
      · rintro (hk | ⟨e, he, t, hdo, hkt⟩)
        · exact Or.inl hk
        · exact Or.inr ⟨e, hperm.mem_iff.mpr he, t, hdo, hkt⟩
    · intro k
      rw [foldEntries_iecm_keys pkgDir env (entryConfigMapOf pkgMeta) o1 _ _ hf1 k,
        foldEntries_iecm_keys pkgDir env (entryConfigMapOf pkgMeta) o2 _ _ hf2 k]
      constructor
      · rintro (hk | ⟨e, he, t, hdo, hkt⟩)
        · exact Or.inl hk
        · exact Or.inr ⟨e, hperm.mem_iff.mp he, t, hdo, hkt⟩
      · rintro (hk | ⟨e, he, t, hdo, hkt⟩)
        · exact Or.inl hk
        · exact Or.inr ⟨e, hperm.mem_iff.mpr he, t, hdo, hkt⟩

/-- Witness for C9 at a concrete two-entry manifest and two permuted completion
orders of its entry tasks. -/
theorem analyzePkg_order_insensitive_witness :
    (["./index", "./extra"] : List String).Perm ["./extra", "./index"] ∧
    (((∃ a, analyzePkgOrdered "/pkg" sampleMeta sampleEnv ["./index", "./extra"] = .ok a) ↔
        (∃ a, analyzePkgOrdered "/pkg" sampleMeta sampleEnv ["./extra", "./index"] = .ok a)) ∧
      (∀ a1 a2,
        analyzePkgOrdered "/pkg" sampleMeta sampleEnv ["./index", "./extra"] = .ok a1 →
        analyzePkgOrdered "/pkg" sampleMeta sampleEnv ["./extra", "./index"] = .ok a2 →
        (∀ e, jsLookup a1.relSrcPathMap e = jsLookup a2.relSrcPathMap e) ∧
        (∀ e, e ∈ jsKeys a1.relSrcPathMap ↔ e ∈ jsKeys a2.relSrcPathMap) ∧
        (∀ k, k ∈ jsKeys a1.entryContentMap ↔ k ∈ jsKeys a2.entryContentMap) ∧
        (∀ k, k ∈ jsKeys a1.iifeEntryContentMap ↔ k ∈ jsKeys a2.iifeEntryContentMap))) :=
  ⟨by decide, analyzePkg_order_insensitive "/pkg" sampleMeta sampleEnv
    ["./index", "./extra"] ["./extra", "./index"] (by decide)⟩

/-! ## The generated-entry consistency invariant (C10 machinery) -/

theorem tsLikePath_append_ts (k : String) : tsLikePath (k ++ ".ts") = true := by
  unfold tsLikePath
  rw [strData_append]
  have hrev : (k.data ++ (".ts" : String).data).reverse = 's' :: 't' :: '.' :: k.data.reverse := by
    rw [List.reverse_append]
    rfl
  rw [hrev]
  rfl

theorem entryDataOf_some_elim (pkgDir : String) (env : PkgEnv)
    (cfgMap : List (String × EntryConfig)) (eid : String)
    (t : List (String × String) × List String × List (String × String))
    (h : entryDataOf pkgDir env cfgMap eid = some t) :
    ∃ cfg, jsLookup cfgMap eid = some cfg ∧ entryData pkgDir env eid cfg = .ok t := by
  unfold entryDataOf at h
  cases hc : jsLookup cfgMap eid with
  | none =>
    rw [hc] at h
    exact Option.noConfusion h
  | some cfg =>
    rw [hc] at h
    replace h : (entryData pkgDir env eid cfg).toOption = some t := h
    refine ⟨cfg, rfl, ?_⟩
    cases he : entryData pkgDir env eid cfg with
    | error msg =>
      rw [he] at h
      exact Option.noConfusion h
    | ok t2 =>
      rw [he] at h
      replace h : some t2 = some t := h
      rw [Option.some.inj h]

theorem entryData_ok_shape (pkgDir : String) (env : PkgEnv) (eid : String)
    (cfg : EntryConfig)
    (t : List (String × String) × List String × List (String × String))
    (h : entryData pkgDir env eid cfg = .ok t) :
    entryContentE pkgDir env eid cfg = .ok t.1 ∧
    t.2.1 = entryPathsOf pkgDir env eid cfg t.1 ∧
    entryIifeContentE pkgDir env cfg t.2.1 = .ok t.2.2 := by
  unfold entryData at h
  cases hcm : entryContentE pkgDir env eid cfg with
  | error msg =>
    rw [hcm, exceptBind_error] at h
    exact Except.noConfusion h
  | ok cm =>
    rw [hcm, exceptBind_ok] at h
    dsimp only at h
    cases hicm : entryIifeContentE pkgDir env cfg (entryPathsOf pkgDir env eid cfg cm) with
    | error msg =>
      rw [hicm, exceptBind_error] at h
      exact Except.noConfusion h
    | ok icm =>
      rw [hicm, exceptBind_ok] at h
      have ht : (cm, entryPathsOf pkgDir env eid cfg cm, icm) = t := Except.ok.inj h
      rw [← ht]
      exact ⟨rfl, rfl, hicm⟩

theorem entryData_paths_cases (pkgDir : String) (env : PkgEnv) (eid : String)
    (cfg : EntryConfig)
    (t : List (String × String) × List String × List (String × String))
    (h : entryData pkgDir env eid cfg = .ok t) :
    t.2.1 = env.srcQuery pkgDir eid ∨ t.2.1 = t.1.map (fun kv => kv.1 ++ ".ts") := by
  obtain ⟨-, hps, -⟩ := entryData_ok_shape pkgDir env eid cfg t h
  rw [hps]
  unfold entryPathsOf
  cases hgen : cfg.generator with
  | none => exact Or.inl rfl
  | some gen => exact Or.inr rfl

theorem entryData_gen_paths (pkgDir : String) (env : PkgEnv) (eid : String)
    (cfg : EntryConfig)
    (t : List (String × String) × List String × List (String × String))
    (h : entryData pkgDir env eid cfg = .ok t) (hne : t.1 ≠ []) :
    t.2.1 = t.1.map (fun kv => kv.1 ++ ".ts") := by
  obtain ⟨hcm, hps, -⟩ := entryData_ok_shape pkgDir env eid cfg t h
  rw [hps]
  unfold entryPathsOf
  cases hgen : cfg.generator with
  | none =>
    unfold entryContentE at hcm
    rw [hgen] at hcm
    exact absurd (Except.ok.inj hcm) (fun hc => hne hc.symm)
  | some gen => rfl

theorem foldEntries_rsp_mem (pkgDir : String) (env : PkgEnv)
    (cfgMap : List (String × EntryConfig)) :
    ∀ (order : List String) (acc res : AnalysisAcc),
      order.foldlM (analyzeEntryStep pkgDir env cfgMap) acc = .ok res →
      ∀ pr ∈ res.relSrcPathMap, pr ∈ acc.relSrcPathMap ∨
        ∃ t, entryDataOf pkgDir env cfgMap pr.1 = some t ∧ pr.2 = t.2.1 := by
  intro order
  induction order with
  | nil =>
    intro acc res h pr hpr
    have hra : acc = res := Except.ok.inj h
    subst hra
    exact Or.inl hpr
  | cons a l ih =>
    intro acc res h pr hpr
    obtain ⟨acc1, h1, h2⟩ := foldlM_cons_ok _ _ _ _ _ h
    rcases ih acc1 res h2 pr hpr with hin | hdata
    · rcases analyzeEntryStep_ok_cases _ _ _ _ _ _ h1 with ⟨hn, hacc⟩ | ⟨cfg, t, hc, ht, hacc⟩
      · subst hacc
        exact Or.inl hin
      · subst hacc
        dsimp only at hin
        rcases mem_jsInsert _ _ _ pr hin with heq | hin2
        · right
          refine ⟨t, ?_, ?_⟩
          · rw [heq]
            exact entryDataOf_eq pkgDir env cfgMap a cfg t hc ht
          · rw [heq]
        · exact Or.inl hin2
    · exact Or.inr hdata

theorem foldEntries_ecm_mem (pkgDir : String) (env : PkgEnv)
    (cfgMap : List (String × EntryConfig)) :
    ∀ (order : List String) (acc res : AnalysisAcc),
      order.foldlM (analyzeEntryStep pkgDir env cfgMap) acc = .ok res →
      ∀ q ∈ res.entryContentMap, q ∈ acc.entryContentMap ∨
        ∃ e ∈ order, ∃ t, entryDataOf pkgDir env cfgMap e = some t ∧ q ∈ t.1 := by
  intro order
  induction order with
  | nil =>
    intro acc res h q hq
    have hra : acc = res := Except.ok.inj h
    subst hra
    exact Or.inl hq
  | cons a l ih =>
    intro acc res h q hq
    obtain ⟨acc1, h1, h2⟩ := foldlM_cons_ok _ _ _ _ _ h
    rcases ih acc1 res h2 q hq with hq1 | ⟨e, he, t2, hdo2, hqt⟩
    · rcases analyzeEntryStep_ok_cases _ _ _ _ _ _ h1 with ⟨hn, hacc⟩ | ⟨cfg, t, hc, ht, hacc⟩
      · subst hacc
        exact Or.inl hq1
      · subst hacc
        dsimp only at hq1
        rcases mem_jsAssign t.1 acc.entryContentMap q hq1 with hm | hm
        · exact Or.inl hm
        · exact Or.inr ⟨a, List.mem_cons_self a l, t,
            entryDataOf_eq pkgDir env cfgMap a cfg t hc ht, hm⟩
    · exact Or.inr ⟨e, List.mem_cons_of_mem a he, t2, hdo2, hqt⟩

set_option maxHeartbeats 1000000 in
theorem pathContentMap_lookup (pkgDir : String) (ecm iecm : List (String × String))
    (e content : String) (hmem : (e, content) ∈ ecm)
    (hUniq : ∀ q ∈ ecm,
      buildTscPath pkgDir q.1 ".js" = buildTscPath pkgDir e ".js" → q.2 = content)
    (hNoIife : ∀ q ∈ iecm,
      buildTscPath pkgDir q.1 ".iife.js" ≠ buildTscPath pkgDir e ".js") :
    jsLookup (pathContentMap pkgDir ecm iecm) (buildTscPath pkgDir e ".js") =
      some content := by
  unfold pathContentMap
  rw [foldInsert_eq_jsAssign, jsAssign_append]
  have hagree2 : ∀ q ∈ iecm.map (fun kv => (buildTscPath pkgDir kv.1 ".iife.js", kv.2)),
      q.1 = buildTscPath pkgDir e ".js" → q.2 = content := by
    intro q hq hq1
    obtain ⟨kv, hkv, hq2⟩ := List.mem_map.mp hq
    rw [← hq2] at hq1
    exact absurd hq1 (hNoIife kv hkv)
  rw [jsLookup_jsAssign_agree _ _ (buildTscPath pkgDir e ".js") content hagree2, if_neg]
  · have hagree1 : ∀ q ∈ ecm.map (fun kv => (buildTscPath pkgDir kv.1 ".js", kv.2)),
        q.1 = buildTscPath pkgDir e ".js" → q.2 = content := by
      intro q hq hq1
      obtain ⟨kv, hkv, hq2⟩ := List.mem_map.mp hq
      rw [← hq2] at hq1 ⊢
      exact hUniq kv hkv hq1
    rw [jsLookup_jsAssign_agree _ [] (buildTscPath pkgDir e ".js") content hagree1, if_pos]
    show buildTscPath pkgDir e ".js" ∈
      (ecm.map (fun kv => (buildTscPath pkgDir kv.1 ".js", kv.2))).map Prod.fst
    exact List.mem_map.mpr
      ⟨(buildTscPath pkgDir e ".js", content), List.mem_map.mpr ⟨(e, content), hmem, rfl⟩, rfl⟩
  · intro hk
    replace hk : buildTscPath pkgDir e ".js" ∈
        (iecm.map (fun kv => (buildTscPath pkgDir kv.1 ".iife.js", kv.2))).map Prod.fst := hk
    obtain ⟨q, hq, hq1⟩ := List.mem_map.mp hk
    obtain ⟨kv, hkv, hq2⟩ := List.mem_map.mp hq
    rw [← hq2] at hq1
    exact hNoIife kv hkv hq1

theorem buildInputMap_lookup (a : PkgAnalysis) (ext p0 : String)
    (hts : ∀ pr ∈ a.relSrcPathMap, ∀ p ∈ pr.2, tsLikePath p = true)
    (hp0ts : tsLikePath p0 = true)
    (hmem : ∃ pr ∈ a.relSrcPathMap, p0 ∈ pr.2) :
    jsLookup (buildInputMap a ext) (buildOutputId p0) =
      some (buildTscPath a.pkgDir p0 ext) := by
  unfold buildInputMap
  rw [foldInsert_eq_jsAssign]
  have hagree : ∀ q ∈ a.relSrcPathMap.flatMap
      (fun pr => pr.2.map (fun p => (buildOutputId p, buildTscPath a.pkgDir p ext))),
      q.1 = buildOutputId p0 → q.2 = buildTscPath a.pkgDir p0 ext := by
    intro q hq hq1
    obtain ⟨pr, hpr, hq2⟩ := List.mem_flatMap.mp hq
    obtain ⟨p, hp, hq3⟩ := List.mem_map.mp hq2
    rw [← hq3] at hq1 ⊢
    exact buildTscPath_agree a.pkgDir ext p p0 (hts pr hpr p hp) hp0ts hq1
  rw [jsLookup_jsAssign_agree _ [] (buildOutputId p0) (buildTscPath a.pkgDir p0 ext) hagree,
    if_pos]
  obtain ⟨pr, hpr, hp0⟩ := hmem
  show buildOutputId p0 ∈ (a.relSrcPathMap.flatMap
      (fun pr => pr.2.map (fun p => (buildOutputId p, buildTscPath a.pkgDir p ext)))).map
      Prod.fst
  exact List.mem_map.mpr
    ⟨(buildOutputId p0, buildTscPath a.pkgDir p0 ext),
      List.mem_flatMap.mpr ⟨pr, hpr, List.mem_map.mpr ⟨p0, hp0, rfl⟩⟩, rfl⟩

/-- C10 (amended): in every successful analysis over an absolute package
directory and `.ts`-suffixed source queries, an expanded entry id `e` held in
the library generated-content map contributes the resolved source path
`e + ".ts"`, and — provided the generated text is truthy (non-empty), the final
path segment of `e` is ordinary and carries no `.ts`/`.tsx` suffix
(`cleanEntryId`), and no other generated entry of either content map shadows
its `.js` tsc path — the module input map built with extension `.js` sends
`buildOutputId (e + ".ts")` to exactly `buildTscPath pkgDir (e + ".ts") ".js"`,
which equals `buildTscPath pkgDir e ".js"`, the path the generated-content
plugin claims in `resolveId` and serves from memory in `load`.  Each proviso is
necessary: the counterexample exhibits reachable analyses violating the
conclusion both with falsy text and, for the non-clean root entry `"."`, with
truthy text (join-then-strip makes the two tsc paths differ, so the plugin
never claims the input-map path). -/
theorem generated_entry_resolvable (pkgDir : String) (pkgMeta : SrcPkgMeta)
    (env : PkgEnv) (order : List String) (a : PkgAnalysis) (e content : String)
    (hRun : analyzePkgOrdered pkgDir pkgMeta env order = .ok a)
    (hAbs : pkgDir.data.head? = some '/')
    (hMem : jsLookup a.entryContentMap e = some content)
    (hContent : content ≠ "")
    (hSeg : cleanEntryId e = true)
    (hEnv : ∀ eid p, p ∈ env.srcQuery pkgDir eid → tsLikePath p = true)
    (hUniq : ∀ q ∈ a.entryContentMap,
      buildTscPath pkgDir q.1 ".js" = buildTscPath pkgDir e ".js" → q.2 = content)
    (hNoIife : ∀ q ∈ a.iifeEntryContentMap,
      buildTscPath pkgDir q.1 ".iife.js" ≠ buildTscPath pkgDir e ".js") :
    (∃ entry ps, jsLookup a.relSrcPathMap entry = some ps ∧ (e ++ ".ts") ∈ ps) ∧
    buildTscPath pkgDir (e ++ ".ts") ".js" = buildTscPath pkgDir e ".js" ∧
    jsLookup (buildInputMap a ".js") (buildOutputId (e ++ ".ts")) =
      some (buildTscPath pkgDir e ".js") ∧
    (∀ cwd, generatedContentResolveId cwd pkgDir a.entryContentMap
      a.iifeEntryContentMap (buildTscPath pkgDir e ".js") none =
      some (buildTscPath pkgDir e ".js")) ∧
    generatedContentLoad pkgDir a.entryContentMap a.iifeEntryContentMap
      (buildTscPath pkgDir e ".js") = some content := by
  obtain ⟨acc, hf, ha⟩ := analyzePkgOrdered_ok_elim pkgDir pkgMeta env order a hRun
  subst ha
  dsimp only at hMem hUniq hNoIife ⊢
  have hmemp : (e, content) ∈ acc.entryContentMap := jsLookup_mem _ _ _ hMem
  have hprov := foldEntries_ecm_mem pkgDir env (entryConfigMapOf pkgMeta) order _ _ hf
    (e, content) hmemp
  rcases hprov with hnil | ⟨entry, horder, t, hdo, hq⟩
  · exact absurd hnil (List.not_mem_nil _)
  · obtain ⟨cfg, hcfg, hed⟩ := entryDataOf_some_elim _ _ _ _ _ hdo
    have hne : t.1 ≠ [] := by
      intro hc
      rw [hc] at hq
      exact absurd hq (List.not_mem_nil _)
    have hpaths : t.2.1 = t.1.map (fun kv => kv.1 ++ ".ts") :=
      entryData_gen_paths _ _ _ _ _ hed hne
    have hlookrsp : jsLookup acc.relSrcPathMap entry = some t.2.1 := by
      rw [foldEntries_rsp pkgDir env (entryConfigMapOf pkgMeta) order _ _ hf entry,
        if_pos ⟨horder, by rw [hcfg]; rfl⟩, hdo]
      rfl
    have hmemts : (e ++ ".ts") ∈ t.2.1 := by
      rw [hpaths]
      exact List.mem_map.mpr ⟨(e, content), hq, rfl⟩
    obtain ⟨I, L, hIL, hnoext, hE1a, hE1b⟩ := buildTscPath_clean_decomp pkgDir e ".js" hSeg
    have hE2 : buildTscPath pkgDir (e ++ ".ts") ".js" = buildTscPath pkgDir e ".js" := by
      rw [hE1a, hE1b]
    have hts : ∀ pr ∈ acc.relSrcPathMap, ∀ p ∈ pr.2, tsLikePath p = true := by
      intro pr hpr p hp
      rcases foldEntries_rsp_mem pkgDir env (entryConfigMapOf pkgMeta) order _ _ hf pr hpr
        with hnil2 | ⟨t2, hdo2, hps2⟩
      · exact absurd hnil2 (List.not_mem_nil _)
      · obtain ⟨cfg2, hcfg2, hed2⟩ := entryDataOf_some_elim _ _ _ _ _ hdo2
        rcases entryData_paths_cases _ _ _ _ _ hed2 with hsq | hgenp
        · rw [hps2, hsq] at hp
          exact hEnv pr.1 p hp
        · rw [hps2, hgenp] at hp
          obtain ⟨kv, hkv, hkveq⟩ := List.mem_map.mp hp
          rw [← hkveq]
          exact tsLikePath_append_ts kv.1
    have hlookpcm : jsLookup (pathContentMap pkgDir acc.entryContentMap
        acc.iifeEntryContentMap) (buildTscPath pkgDir e ".js") = some content :=
      pathContentMap_lookup pkgDir acc.entryContentMap acc.iifeEntryContentMap e content
        hmemp hUniq hNoIife
    refine ⟨⟨entry, t.2.1, hlookrsp, hmemts⟩, hE2, ?_, ?_, ?_⟩
    · have hinput := buildInputMap_lookup
        { pkgDir := pkgDir, pkgMeta := pkgMeta
          entryConfigMap := entryConfigMapOf pkgMeta
          relSrcPathMap := acc.relSrcPathMap
          entryContentMap := acc.entryContentMap
          iifeEntryContentMap := acc.iifeEntryContentMap } ".js" (e ++ ".ts") hts
        (tsLikePath_append_ts e) ⟨(entry, t.2.1), jsLookup_mem _ _ _ hlookrsp, hmemts⟩
      rw [hinput]
      show some (buildTscPath pkgDir (e ++ ".ts") ".js") = _
      rw [hE2]
    · intro cwd
      obtain ⟨w, hw⟩ := joinCore_head_abs pkgDir I hAbs
      have hdata : (buildTscPath pkgDir e ".js").data =
          '/' :: (w ++ L ++ (".js" : String).data) := by
        rw [hE1a, strData_append]
        show (joinCore pkgDir I ++ L) ++ (".js" : String).data = _
        rw [hw]
        simp [List.cons_append, List.append_assoc]
      have hrel : isPathRelative (buildTscPath pkgDir e ".js") = false := by
        unfold isPathRelative
        rw [hdata]
        rfl
      unfold generatedContentResolveId computeImportPath
      dsimp only
      rw [hrel]
      simp only [Bool.false_eq_true, if_false]
      rw [hlookpcm]
      dsimp only
      rw [if_pos hContent]
    · unfold generatedContentLoad
      exact hlookpcm

/-- C10 counterexample, two reachable violations of the unconditional claim.
First, falsy generated text: a generator returning the empty string yields a
successful analysis whose virtual entry reaches the module input map, yet the
generated-content plugin refuses to claim its tsc path in `resolveId` (the
content fails the truthiness test).  Second, truthy text at the root entry
`"."`: because `buildTscPath` runs `path.join` before stripping the extension,
the input-map path `buildTscPath(pkgDir, "." + ".ts", ".js")` (the `..ts`
segment survives the join) differs from the content-map key
`buildTscPath(pkgDir, ".", ".js")` (the `.` segment collapses), and the plugin
never claims the input-map path, so that virtual entry point is not resolvable
from memory either. -/
theorem generated_entry_counterexample :
    (analyzePkgOrdered "/pkg" cexMeta cexEnv ["./main"] = .ok cexAnalysis ∧
      jsLookup cexAnalysis.entryContentMap "./main" = some "" ∧
      jsLookup (buildInputMap cexAnalysis ".js") (buildOutputId ("./main" ++ ".ts")) =
        some (buildTscPath "/pkg" ("./main" ++ ".ts") ".js") ∧
      generatedContentResolveId "/cwd" "/pkg" cexAnalysis.entryContentMap
        cexAnalysis.iifeEntryContentMap (buildTscPath "/pkg" ("./main" ++ ".ts") ".js")
        none = none) ∧
    (analyzePkgOrdered "/pkg" rootMeta rootEnv ["."] = .ok rootAnalysis ∧
      jsLookup rootAnalysis.entryContentMap "." = some "x" ∧
      ("x" : String) ≠ "" ∧
      buildTscPath "/pkg" ("." ++ ".ts") ".js" ≠ buildTscPath "/pkg" "." ".js" ∧
      jsLookup (buildInputMap rootAnalysis ".js") (buildOutputId ("." ++ ".ts")) =
        some (buildTscPath "/pkg" ("." ++ ".ts") ".js") ∧
      generatedContentResolveId "/cwd" "/pkg" rootAnalysis.entryContentMap
        rootAnalysis.iifeEntryContentMap (buildTscPath "/pkg" ("." ++ ".ts") ".js")
        none = none ∧
      generatedContentLoad "/pkg" rootAnalysis.entryContentMap
        rootAnalysis.iifeEntryContentMap (buildTscPath "/pkg" ("." ++ ".ts") ".js") =
        none) := by
  refine ⟨⟨by decide, by decide, by decide, by decide⟩,
    by decide, by decide, by decide, by decide, by decide, by decide, by decide⟩

/-- Witness for C10 at a concrete wildcard entry expanded to two ids by its
generator. -/
theorem generated_entry_resolvable_witness :
    analyzePkgOrdered "/pkg" wMeta wEnv ["./plugins/*"] = .ok wAnalysis ∧
    ("/pkg" : String).data.head? = some '/' ∧
    jsLookup wAnalysis.entryContentMap "./plugins/a" = some "ca" ∧
    ("ca" : String) ≠ "" ∧
    cleanEntryId "./plugins/a" = true ∧
    ((∃ entry ps, jsLookup wAnalysis.relSrcPathMap entry = some ps ∧
        ("./plugins/a" ++ ".ts") ∈ ps) ∧
      buildTscPath "/pkg" ("./plugins/a" ++ ".ts") ".js" =
        buildTscPath "/pkg" "./plugins/a" ".js" ∧
      jsLookup (buildInputMap wAnalysis ".js") (buildOutputId ("./plugins/a" ++ ".ts")) =
        some (buildTscPath "/pkg" "./plugins/a" ".js") ∧
      (∀ cwd, generatedContentResolveId cwd "/pkg" wAnalysis.entryContentMap
        wAnalysis.iifeEntryContentMap (buildTscPath "/pkg" "./plugins/a" ".js") none =
        some (buildTscPath "/pkg" "./plugins/a" ".js")) ∧
      generatedContentLoad "/pkg" wAnalysis.entryContentMap wAnalysis.iifeEntryContentMap
        (buildTscPath "/pkg" "./plugins/a" ".js") = some "ca") :=
  ⟨by decide, by decide, by decide, by decide, by decide,
    generated_entry_resolvable "/pkg" wMeta wEnv ["./plugins/*"] wAnalysis
      "./plugins/a" "ca" (by decide) (by decide) (by decide) (by decide) (by decide)
      (fun eid p hp => absurd hp (List.not_mem_nil p))
      (by decide) (by decide)⟩

end BuildPkg
